import Mathlib

/-!
# wow-rs: verification of the binary game-asset decoders

A shallow embedding of the `wow-rs` Rust crate (read-only decoders for a
texture format, a terrain-tile format and a world-model format) together
with theorems settling the frozen claims about it.

Modelling conventions, used throughout:

* Rust byte streams are `List UInt8`; a `std::io::Cursor` is a `Cursor`
  (the underlying bytes plus a read position).
* Rust `String` / `&str` values are represented by their UTF-8 byte lists
  (`List UInt8`); where character-level iteration matters
  (`split_resource_name`) the input is a `List Char` and its UTF-8 encoding
  is computed explicitly.
* Fallible Rust code (`io::Result`) returns `Res α`; a Rust panic (index
  out of bounds, string slicing off a char boundary) is the distinguished
  outcome `Res.crash`, which is not an `io::Result` error.
* `u32` values read from streams are `Nat`s below `2 ^ 32`; `f32` fields are
  kept as their raw little-endian byte groups (no claim depends on float
  arithmetic, only on counts and record layout).
* The resource-opening collaborator (`ResourceReader`) is out of scope per
  spec §1; top-level loaders take the already-fetched byte lists of the
  resources they would open.
-/

set_option maxHeartbeats 1000000
set_option maxRecDepth 10000

namespace WowRs

/-- The error kinds used by the crate (Rust `io::Error` kind + message pairs
are distinguished by constructor). -/
inductive Err where
  /-- `UnexpectedEof` from `read_vec_into` / `byteorder` primitive reads. -/
  | eof : Err
  /-- `UnexpectedEof` with message "incomplete chunk token"
  (`chunked.rs`, 1–3 bytes read where a 4-byte token was expected). -/
  | incompleteToken : Err
  /-- `InvalidData` from `str::from_utf8` / `String::from_utf8` failure. -/
  | invalidUtf8 : Err
  /-- `InvalidData` "invalid compressed alpha map format". -/
  | invalidAlphaMap : Err
  /-- `InvalidData` "unsupported WMO version" / "unsupported BLP version". -/
  | unsupportedVersion : Err
  /-- `InvalidData` "unsupported encoding id" (blp.rs). -/
  | unsupportedEncoding : Err
  /-- `InvalidData` "file header isn't BLP2". -/
  | badMagic : Err
deriving DecidableEq, Repr

/-- Outcome of running a piece of embedded Rust code: a value, an
`io::Result` error, or a panic (`Res.crash` — index out of bounds,
slicing off a char boundary). -/
inductive Res (α : Type) where
  | ok : α → Res α
  | err : Err → Res α
  | crash : Res α
deriving DecidableEq, Repr

instance : Monad Res where
  pure := Res.ok
  bind r f := match r with
    | .ok a => f a
    | .err e => .err e
    | .crash => .crash

attribute [simp] Res.ok.injEq

@[simp] theorem Res.pure_eq {α : Type} (a : α) : (pure a : Res α) = Res.ok a := rfl

@[simp] theorem Res.bind_ok {α β : Type} (a : α) (f : α → Res β) :
    (Res.ok a >>= f) = f a := rfl

@[simp] theorem Res.bind_err {α β : Type} (e : Err) (f : α → Res β) :
    (Res.err e >>= f) = (Res.err e : Res β) := rfl

@[simp] theorem Res.bind_crash {α β : Type} (f : α → Res β) :
    (Res.crash >>= f) = (Res.crash : Res β) := rfl

/-- A seekable byte stream with a read position (`std::io::Cursor`).
The `rest` field caches the unread suffix `data.drop pos` so that kernel
evaluation of sequential reads is linear instead of quadratic; every
operation below maintains `rest = data.drop pos`, and `Cursor.fresh` /
`Cursor.seekTo` establish it. -/
structure Cursor where
  data : List UInt8
  pos : Nat
  rest : List UInt8
deriving DecidableEq, Repr

namespace Cursor

/-- A cursor at the start of a byte stream (`Cursor::new`). -/
def fresh (bytes : List UInt8) : Cursor := ⟨bytes, 0, bytes⟩

/-- Bytes left to read. -/
def remaining (c : Cursor) : Nat := c.rest.length

/-- `read_u8`: one byte, `UnexpectedEof` when exhausted. -/
def readU8 (c : Cursor) : Res (UInt8 × Cursor) :=
  match c.rest with
  | b :: r => .ok (b, ⟨c.data, c.pos + 1, r⟩)
  | [] => .err .eof

/-- `take(n).read_to_end(..)`: reads `min n remaining` bytes; a short read is
NOT an error (matches `std::io::Read::take` + `read_to_end`). -/
def takeRead (c : Cursor) (n : Nat) : List UInt8 × Cursor :=
  (c.rest.take n, ⟨c.data, c.pos + (c.rest.take n).length, c.rest.drop n⟩)

/-- `read_ext::read_vec`: exactly `n` bytes via `take`+`read_to_end`, with an
`UnexpectedEof` error when fewer were available. -/
def readVec (c : Cursor) (n : Nat) : Res (List UInt8 × Cursor) :=
  if (c.takeRead n).1.length < n then .err .eof else .ok (c.takeRead n)

/-- `Seek::seek(SeekFrom::Start(n))` on a cursor: always succeeds. -/
def seekTo (c : Cursor) (n : Nat) : Cursor := ⟨c.data, n, c.data.drop n⟩

/-- Little-endian value of a byte list (first byte least significant). -/
def leNat : List UInt8 → Nat
  | [] => 0
  | b :: rest => b.toNat + 256 * leNat rest

/-- `byteorder` `read_u32::<LE>`. -/
def readU32 (c : Cursor) : Res (Nat × Cursor) := do
  let (bytes, c1) ← c.readVec 4
  pure (leNat bytes, c1)

/-- `byteorder` `read_u16::<LE>`. -/
def readU16 (c : Cursor) : Res (Nat × Cursor) := do
  let (bytes, c1) ← c.readVec 2
  pure (leNat bytes, c1)

/-- `byteorder` `read_u64::<LE>`. -/
def readU64 (c : Cursor) : Res (Nat × Cursor) := do
  let (bytes, c1) ← c.readVec 8
  pure (leNat bytes, c1)

/-- `Read::read(&mut [0u8; n])` on a cursor: fills `min n remaining` bytes
and reports how many were read.  Never fails on a cursor. -/
def readInto (c : Cursor) (n : Nat) : List UInt8 × Cursor := c.takeRead n

/-- A successful `read_u8` strictly shrinks the unread remainder. -/
theorem readU8_remaining {c : Cursor} {b : UInt8} {c1 : Cursor}
    (h : c.readU8 = .ok (b, c1)) : c1.remaining < c.remaining := by
  unfold readU8 at h
  cases hr : c.rest with
  | nil => rw [hr] at h; exact absurd h (by simp)
  | cons b0 r =>
    rw [hr] at h
    cases h
    simp [remaining, hr]

/-- `take(n).read_to_end` never grows the unread remainder. -/
theorem takeRead_remaining (c : Cursor) (n : Nat) :
    (c.takeRead n).2.remaining ≤ c.remaining := by
  simp [takeRead, remaining]

/-- A successful `read_vec` never grows the unread remainder. -/
theorem readVec_remaining {c : Cursor} {n : Nat} {bs : List UInt8} {c1 : Cursor}
    (h : c.readVec n = .ok (bs, c1)) : c1.remaining ≤ c.remaining := by
  unfold readVec at h
  split at h
  · exact absurd h (by simp)
  · have h2 : c.takeRead n = (bs, c1) := by injection h
    have h3 : c1 = (c.takeRead n).2 := by rw [h2]
    rw [h3]
    exact takeRead_remaining c n

/-- A successful `read_u32` never grows the unread remainder. -/
theorem readU32_remaining {c : Cursor} {v : Nat} {c1 : Cursor}
    (h : c.readU32 = .ok (v, c1)) : c1.remaining ≤ c.remaining := by
  unfold readU32 at h
  cases hv : c.readVec 4 with
  | ok p =>
    obtain ⟨bs, cm⟩ := p
    rw [hv] at h
    simp only [Res.bind_ok] at h
    cases h
    exact readVec_remaining hv
  | err e => rw [hv] at h; simp at h
  | crash => rw [hv] at h; simp at h

/-- Exact remainder arithmetic for `take(n).read_to_end`. -/
theorem takeRead_remaining_eq (c : Cursor) (n : Nat) :
    (c.takeRead n).2.remaining = c.remaining - (c.takeRead n).1.length := by
  simp only [takeRead, remaining, List.length_drop, List.length_take]
  omega

/-- A `read` into an `n`-byte buffer returns at most `n` bytes. -/
theorem takeRead_length_le (c : Cursor) (n : Nat) :
    (c.takeRead n).1.length ≤ n := by
  simp only [takeRead]
  exact List.length_take_le n _

/-- A `read` never returns more bytes than remain unread. -/
theorem takeRead_length_le_remaining (c : Cursor) (n : Nat) :
    (c.takeRead n).1.length ≤ c.remaining := by
  simp only [takeRead, remaining]
  simp

end Cursor

/-- Validity of a byte list as UTF-8, mirroring `str::from_utf8` acceptance
(continuation ranges, overlong forms, surrogates and values above U+10FFFF
all rejected). -/
def validUtf8 : List UInt8 → Bool
  | [] => true
  | b :: rest =>
    if b < 0x80 then validUtf8 rest
    else if b < 0xC2 then false
    else if b < 0xE0 then
      match rest with
      | c1 :: r => (0x80 ≤ c1 && c1 < 0xC0) && validUtf8 r
      | [] => false
    else if b < 0xF0 then
      match rest with
      | c1 :: c2 :: r =>
        (if b = 0xE0 then 0xA0 ≤ c1 && c1 < 0xC0
         else if b = 0xED then 0x80 ≤ c1 && c1 < 0xA0
         else 0x80 ≤ c1 && c1 < 0xC0) &&
        (0x80 ≤ c2 && c2 < 0xC0) && validUtf8 r
      | _ => false
    else if b ≤ 0xF4 then
      match rest with
      | c1 :: c2 :: c3 :: r =>
        (if b = 0xF0 then 0x90 ≤ c1 && c1 < 0xC0
         else if b = 0xF4 then 0x80 ≤ c1 && c1 < 0x90
         else 0x80 ≤ c1 && c1 < 0xC0) &&
        (0x80 ≤ c2 && c2 < 0xC0) && (0x80 ≤ c3 && c3 < 0xC0) && validUtf8 r
      | _ => false
    else false

/-! ## alpha_map.rs -/

/-- `const ALPHAMAP_SIDE: usize = 64;` -/
def ALPHAMAP_SIDE : Nat := 64

/-- `const ALPHAMAP_SIZE: usize = ALPHAMAP_SIDE ^ 2;` — NOTE: in Rust `^` is
bitwise XOR, not exponentiation, so this constant is `64 XOR 2 = 66`,
not 4096. -/
def ALPHAMAP_SIZE : Nat := ALPHAMAP_SIDE ^^^ 2

/-- `struct AlphaMap { is_u4: bool, data: Vec<u8> }` -/
structure AlphaMap where
  is_u4 : Bool
  data : List UInt8
deriving DecidableEq, Repr

namespace AlphaMap

/-- `AlphaMap::read_raw`: `ALPHAMAP_SIZE / 2` bytes in 4-bit mode, else
`ALPHAMAP_SIZE` bytes, via `read_vec`. -/
def read_raw (c : Cursor) (is_u4 : Bool) : Res (AlphaMap × Cursor) := do
  let len := if is_u4 then ALPHAMAP_SIZE / 2 else ALPHAMAP_SIZE
  let (data, c1) ← c.readVec len
  pure (⟨is_u4, data⟩, c1)

/-- The `while data.len() < ALPHAMAP_SIZE` loop of `AlphaMap::read_compressed`:
read a control byte; high bit set ⇒ fill run of `control & 0x7f` copies of the
next byte; clear ⇒ `take(control & 0x7f).read_to_end` (short copy reads are
silently accepted by `read_to_end`).  Every iteration consumes at least the
control byte, so the loop is driven by a fuel bound strictly above the unread
remainder; the fuel-0 branch is unreachable (its proof argument is
contradictory). -/
def readCompressedLoop : (fuel : Nat) → (c : Cursor) → (data : List UInt8) →
    c.remaining < fuel → Res (List UInt8 × Cursor)
  | 0, _, _, h => absurd h (Nat.not_lt_zero _)
  | fuel + 1, c, data, h =>
    if data.length < ALPHAMAP_SIZE then
      match h1 : c.readU8 with
      | .err e => .err e
      | .crash => .crash
      | .ok (byte, c1) =>
        let fill_mode := byte &&& 0x80 ≠ 0
        let count := (byte &&& 0x7f).toNat
        if fill_mode then
          match h2 : c1.readU8 with
          | .err e => .err e
          | .crash => .crash
          | .ok (pattern, c2) =>
            readCompressedLoop fuel c2 (data ++ List.replicate count pattern)
              (by
                have a1 := Cursor.readU8_remaining h1
                have a2 := Cursor.readU8_remaining h2
                omega)
        else
          readCompressedLoop fuel (c1.takeRead count).2 (data ++ (c1.takeRead count).1)
            (by
              have a1 := Cursor.readU8_remaining h1
              have a2 := Cursor.takeRead_remaining c1 count
              omega)
    else
      .ok (data, c)

/-- `AlphaMap::read_compressed`: run the control-byte loop from an empty
buffer, then require the buffer length to be exactly `ALPHAMAP_SIZE`
(`InvalidData` otherwise); the result is always an 8-bit map. -/
def read_compressed (c : Cursor) : Res (AlphaMap × Cursor) := do
  let (data, c1) ← readCompressedLoop (c.remaining + 1) c [] (Nat.lt_succ_self _)
  if data.length = ALPHAMAP_SIZE then
    pure (⟨false, data⟩, c1)
  else
    .err .invalidAlphaMap

/-- `AlphaMap::get`: `let value = self.data[index / 2]` (a panic when out of
bounds, modelled as `none`); in 4-bit mode the nibble is chosen by
`value % 2 == 0` — the parity of the STORED BYTE, not of the index — and in
8-bit mode the byte at `index / 2` is returned as is. -/
def get (m : AlphaMap) (index : Nat) : Option UInt8 :=
  match m.data.get? (index / 2) with
  | none => none
  | some value =>
    if m.is_u4 then
      if value % 2 = 0 then some (value &&& 0b00001111)
      else some ((value &&& 0b11110000) >>> 4)
    else some value

end AlphaMap

/-- Input whose single fill run (control `0xC2` = fill, count `0x42` = 66)
produces exactly `ALPHAMAP_SIZE = 66` bytes, so `read_compressed` succeeds. -/
def c1FillBytes : List UInt8 := [0xC2, 0x07]

/-- An 8-bit alpha map whose first two stored bytes differ (1 then 2),
padded to the 66 bytes `read_raw` actually consumes. -/
def c2Bytes8 : List UInt8 := 1 :: 2 :: List.replicate 64 0

/-- A 4-bit alpha map whose first stored byte is `0x21` (low nibble 1,
high nibble 2, odd value), padded to the 33 bytes `read_raw` consumes. -/
def c2Bytes4 : List UInt8 := 0x21 :: List.replicate 32 0

/-- C1: the claim says `AlphaMap::read_compressed` returns exactly 4096
decoded bytes or an error.  The code instead targets
`ALPHAMAP_SIZE = 64 XOR 2 = 66` (Rust `^` is XOR, not power): on the
2-byte input `[0xC2, 0x07]` it SUCCEEDS with a 66-byte map, which is not
4096 bytes and not an error.  The crate's own `AlphaValues` iterator walks
`64 * 64 = 4096` samples of such a map, so the code contradicts itself and
the spec records the intent (4096). -/
theorem c1_read_compressed_yields_66_bytes :
    AlphaMap.read_compressed (Cursor.fresh c1FillBytes) =
      .ok (⟨false, List.replicate 66 0x07⟩, ⟨c1FillBytes, 2, []⟩) ∧
    (List.replicate (α := UInt8) 66 0x07).length = 66 ∧ (66 : Nat) ≠ 4096 := by
  refine ⟨by decide, by decide, by decide⟩

/-- C2: the claim says `get(i)` returns stored byte `i` in 8-bit mode, and in
4-bit mode the low nibble of byte `i/2` for even `i`.  The code instead
returns byte `i / 2` in 8-bit mode (here `get 1` yields stored byte 0 = 1,
not stored byte 1 = 2), and in 4-bit mode selects the nibble by the parity of
the stored byte value, not the index (here byte `0x21` is odd, so `get 0`
yields the HIGH nibble 2 instead of the low nibble 1). -/
theorem c2_get_misindexes_samples :
    AlphaMap.read_raw (Cursor.fresh c2Bytes8) false =
      .ok (⟨false, c2Bytes8⟩, ⟨c2Bytes8, 66, []⟩) ∧
    (AlphaMap.mk false c2Bytes8).get 1 = some 1 ∧
    c2Bytes8.get? 1 = some 2 ∧ (1 : UInt8) ≠ 2 ∧
    AlphaMap.read_raw (Cursor.fresh c2Bytes4) true =
      .ok (⟨true, c2Bytes4⟩, ⟨c2Bytes4, 33, []⟩) ∧
    (AlphaMap.mk true c2Bytes4).get 0 = some 2 ∧
    ((0x21 : UInt8) &&& 0b00001111) = 1 ∧ (2 : UInt8) ≠ 1 := by
  refine ⟨by decide, by decide, by decide, by decide, by decide, by decide,
    by decide, by decide⟩

/-! ## chunked.rs (`read_chunks_into_map`) -/

/-- `type ChunkMap = HashMap<String, Vec<ChunkData>>`, represented as an
association list from token byte strings to payload lists. -/
abbrev ChunkMap : Type := List (List UInt8 × List (List UInt8))

/-- The map update of the loop body: push onto an existing token's payload
list, else insert a fresh singleton entry. -/
def mapInsert (m : ChunkMap) (tok : List UInt8) (d : List UInt8) : ChunkMap :=
  if m.any (fun p => p.1 = tok) then
    m.map (fun p => if p.1 = tok then (p.1, p.2 ++ [d]) else p)
  else
    m ++ [(tok, [d])]

/-- The `loop` of `read_chunks_into_map`: `input.read` into a 4-byte token
buffer (0 bytes ⇒ clean end, 1–3 bytes ⇒ `UnexpectedEof` "incomplete chunk
token"), mirror the token unless `legion_m2`, `from_utf8` it, read a 4-byte
little-endian size, then `take(size).read_to_end` the payload (a short
payload is not an error) and record it in the map. -/
def readChunksLoop : (fuel : Nat) → (c : Cursor) → (legionM2 : Bool) →
    (acc : ChunkMap) → c.remaining < fuel → Res ChunkMap
  | 0, _, _, _, h => absurd h (Nat.not_lt_zero _)
  | fuel + 1, c, legionM2, acc, h =>
    if h0 : (c.readInto 4).1.length = 0 then
      .ok acc
    else if h4 : (c.readInto 4).1.length < 4 then
      .err .incompleteToken
    else
      let token_buffer := if legionM2 then (c.readInto 4).1 else (c.readInto 4).1.reverse
      if validUtf8 token_buffer then
        match h2 : (c.readInto 4).2.readU32 with
        | .err e => .err e
        | .crash => .crash
        | .ok (size, c2) =>
          readChunksLoop fuel (c2.takeRead size).2 legionM2
            (mapInsert acc token_buffer (c2.takeRead size).1)
            (by
              have a1 := Cursor.takeRead_remaining_eq c 4
              have a2 := Cursor.readU32_remaining h2
              have a3 := Cursor.takeRead_remaining c2 size
              have a5 := Cursor.takeRead_length_le_remaining c 4
              simp only [Cursor.readInto] at *
              omega)
      else
        .err .invalidUtf8

/-- `read_chunks_into_map`. -/
def read_chunks_into_map (legionM2 : Bool) (input : List UInt8) : Res ChunkMap :=
  readChunksLoop (input.length + 1) (Cursor.fresh input) legionM2 []
    (by simp [Cursor.remaining, Cursor.fresh])

/-- Little-endian 4-byte encoding of a `u32` value. -/
def le32 (n : Nat) : List UInt8 :=
  [UInt8.ofNat n, UInt8.ofNat (n / 256), UInt8.ofNat (n / 65536),
   UInt8.ofNat (n / 16777216)]

theorem uint8_toNat_ofNat (n : Nat) : (UInt8.ofNat n).toNat = n % 256 := rfl

theorem leNat_le32 (n : Nat) (h : n < 2 ^ 32) : Cursor.leNat (le32 n) = n := by
  simp only [le32, Cursor.leNat, uint8_toNat_ofNat]
  omega

@[simp] theorem le32_length (n : Nat) : (le32 n).length = 4 := rfl

/-- On-stream encoding of one chunk record: mirrored token bytes, 4-byte
little-endian payload length, payload. -/
def encodeChunk (tok : List UInt8) (payload : List UInt8) : List UInt8 :=
  tok.reverse ++ le32 payload.length ++ payload

/-- A whole stream of complete chunk records. -/
def encodeChunks (records : List (List UInt8 × List UInt8)) : List UInt8 :=
  (records.map (fun r => encodeChunk r.1 r.2)).flatten

namespace Cursor

/-- Reading exactly the next block of known bytes from a cursor. -/
theorem takeRead_exact {c : Cursor} {pre rest' : List UInt8} {n : Nat}
    (h : c.rest = pre ++ rest') (hn : pre.length = n) :
    c.takeRead n = (pre, ⟨c.data, c.pos + n, rest'⟩) := by
  subst hn
  simp [takeRead, h, List.take_left, List.drop_left]

theorem readVec_exact {c : Cursor} {pre rest' : List UInt8} {n : Nat}
    (h : c.rest = pre ++ rest') (hn : pre.length = n) :
    c.readVec n = .ok (pre, ⟨c.data, c.pos + n, rest'⟩) := by
  have ht := takeRead_exact h hn
  unfold readVec
  rw [ht]
  subst hn
  simp

theorem readU32_exact {c : Cursor} {k : Nat} {rest' : List UInt8}
    (h : c.rest = le32 k ++ rest') (hk : k < 2 ^ 32) :
    c.readU32 = .ok (k, ⟨c.data, c.pos + 4, rest'⟩) := by
  unfold readU32
  rw [readVec_exact h (le32_length k)]
  simp only [Res.bind_ok]
  rw [leNat_le32 k hk]
  rfl

end Cursor

/-- Main induction for C7: a stream made of complete records followed by
1–3 trailing bytes always ends in the "incomplete chunk token" error,
whatever the accumulated map, fuel and cursor window. -/
theorem readChunksLoop_trailing (records : List (List UInt8 × List UInt8)) :
    ∀ (t : List UInt8),
    (∀ r ∈ records, r.1.length = 4 ∧ validUtf8 r.1 = true ∧ r.2.length < 2 ^ 32) →
    1 ≤ t.length → t.length ≤ 3 →
    ∀ (fuel : Nat) (c : Cursor) (acc : ChunkMap) (h : c.remaining < fuel),
    c.rest = encodeChunks records ++ t →
    readChunksLoop fuel c false acc h = .err .incompleteToken := by
  induction records with
  | nil =>
    intro t _ ht1 ht3 fuel c acc h hdrop
    match fuel with
    | 0 => exact absurd h (Nat.not_lt_zero _)
    | fuel + 1 =>
      have hdrop0 : c.rest = t := by simpa [encodeChunks] using hdrop
      have e1 : (c.readInto 4).1 = t := by
        simp only [Cursor.readInto, Cursor.takeRead, hdrop0]
        exact List.take_of_length_le (by omega)
      simp only [readChunksLoop, e1]
      rw [dif_neg (by omega), dif_pos (by omega)]
  | cons r rest ih =>
    intro t hrec ht1 ht3 fuel c acc h hdrop
    match fuel with
    | 0 => exact absurd h (Nat.not_lt_zero _)
    | fuel + 1 =>
      obtain ⟨hlen, hvalid, hsize⟩ := hrec r (by simp)
      have hdrop1 : c.rest =
          r.1.reverse ++ (le32 r.2.length ++ (r.2 ++ (encodeChunks rest ++ t))) := by
        simpa [encodeChunks, encodeChunk, List.append_assoc] using hdrop
      have e1 : c.takeRead 4 =
          (r.1.reverse,
            ⟨c.data, c.pos + 4, le32 r.2.length ++ (r.2 ++ (encodeChunks rest ++ t))⟩) :=
        Cursor.takeRead_exact hdrop1 (by simp [hlen])
      have e2 : (⟨c.data, c.pos + 4,
            le32 r.2.length ++ (r.2 ++ (encodeChunks rest ++ t))⟩ : Cursor).readU32 =
          .ok (r.2.length,
            ⟨c.data, c.pos + 4 + 4, r.2 ++ (encodeChunks rest ++ t)⟩) :=
        Cursor.readU32_exact rfl hsize
      have e3 : (⟨c.data, c.pos + 4 + 4,
            r.2 ++ (encodeChunks rest ++ t)⟩ : Cursor).takeRead r.2.length =
          (r.2, ⟨c.data, c.pos + 4 + 4 + r.2.length, encodeChunks rest ++ t⟩) :=
        Cursor.takeRead_exact rfl rfl
      have elen : (c.readInto 4).1.length = 4 := by
        simp [Cursor.readInto, e1, hlen]
      simp only [readChunksLoop, Cursor.readInto] at *
      rw [dif_neg (by omega), dif_neg (by omega)]
      simp only [e1, Bool.false_eq_true, if_false, List.reverse_reverse, hvalid, if_true]
      have e1b : (c.takeRead 4).2 =
          (⟨c.data, c.pos + 4,
            le32 r.2.length ++ (r.2 ++ (encodeChunks rest ++ t))⟩ : Cursor) := by
        rw [e1]
      split
      · rename_i heq
        rw [e1b, e2] at heq
        exact absurd heq (by simp)
      · rename_i heq
        rw [e1b, e2] at heq
        exact absurd heq (by simp)
      · rename_i size c2 heq
        rw [e1b, e2] at heq
        obtain ⟨hs, hc⟩ : size = r.2.length ∧
            c2 = ⟨c.data, c.pos + 4 + 4, r.2 ++ (encodeChunks rest ++ t)⟩ := by
          have h5 := heq
          simp only [Res.ok.injEq, Prod.mk.injEq] at h5
          exact ⟨h5.1.symm, h5.2.symm⟩
        subst hs
        subst hc
        simp only [e3]
        exact ih t (fun x hx => hrec x (by simp [hx])) ht1 ht3 fuel _ _ _ rfl

/-- C7: a chunk stream made of any number of complete records followed by
1–3 trailing bytes (where the next 4-byte token was expected) never panics
and always takes the same single policy: `read_chunks_into_map` reports the
explicit `UnexpectedEof` "incomplete chunk token" error. -/
theorem c7_trailing_token_bytes_error
    (records : List (List UInt8 × List UInt8)) (t : List UInt8)
    (hrec : ∀ r ∈ records, r.1.length = 4 ∧ validUtf8 r.1 = true ∧
      r.2.length < 2 ^ 32)
    (ht1 : 1 ≤ t.length) (ht3 : t.length ≤ 3) :
    read_chunks_into_map false (encodeChunks records ++ t) =
      .err .incompleteToken := by
  unfold read_chunks_into_map
  exact readChunksLoop_trailing records t hrec ht1 ht3 _ _ _ _ rfl

/-- Witness for C7: one complete `MVER` record followed by two stray bytes. -/
theorem c7_trailing_token_bytes_error_witness :
    read_chunks_into_map false
      (encodeChunks [([77, 86, 69, 82], [1])] ++ [0, 0]) =
      .err .incompleteToken :=
  c7_trailing_token_bytes_error [([77, 86, 69, 82], [1])] [0, 0]
    (by decide) (by decide) (by decide)

/-! ## reader/mod.rs (`split_resource_name`) -/

/-- UTF-8 encoding of one Unicode scalar (what Rust `char` / `&str` store). -/
def encodeChar (ch : Char) : List UInt8 :=
  let v := ch.toNat
  if v < 0x80 then [UInt8.ofNat v]
  else if v < 0x800 then
    [UInt8.ofNat (0xC0 + v / 64), UInt8.ofNat (0x80 + v % 64)]
  else if v < 0x10000 then
    [UInt8.ofNat (0xE0 + v / 4096), UInt8.ofNat (0x80 + v / 64 % 64),
     UInt8.ofNat (0x80 + v % 64)]
  else
    [UInt8.ofNat (0xF0 + v / 262144), UInt8.ofNat (0x80 + v / 4096 % 64),
     UInt8.ofNat (0x80 + v / 64 % 64), UInt8.ofNat (0x80 + v % 64)]

/-- UTF-8 byte list of a character sequence — the bytes a Rust `&str`
holds, with `len()` equal to this list's length. -/
def encodeUtf8 (s : List Char) : List UInt8 :=
  (s.map encodeChar).flatten

/-- UTF-8 byte list of a string literal. -/
def strBytes (s : String) : List UInt8 := encodeUtf8 s.toList

/-- The `for (index, ch) in input.chars().rev().enumerate()` scan of
`split_resource_name`: `pos = input.len() - (index + 1)` mixes a CHARACTER
index into a BYTE length; `'.'` records `ext_pos = pos` and continues,
a separator records `file_pos = pos + 1` and breaks.  Returns
`(ext_pos, file_pos)`.  (`pos` cannot underflow: the char count never
exceeds the byte count.) -/
def splitScan : List Char → (len : Nat) → (index : Nat) → (extPos : Nat) →
    Nat × Nat
  | [], _, _, extPos => (extPos, 0)
  | ch :: rest, len, index, extPos =>
    let pos := len - (index + 1)
    if ch = '.' then splitScan rest len (index + 1) pos
    else if ch = '/' ∨ ch = '\\' then (extPos, pos + 1)
    else splitScan rest len (index + 1) extPos

/-- Rust `str::is_char_boundary`. -/
def isCharBoundary (bytes : List UInt8) (i : Nat) : Bool :=
  if i = 0 then true
  else if i = bytes.length then true
  else
    match bytes.get? i with
    | some b => decide (b < 0x80 ∨ 0xC0 ≤ b)
    | none => false

/-- `&input[a..b]`: byte-range string slicing, which PANICS (here `none`)
when the range is inverted, out of bounds, or off a char boundary. -/
def sliceStr (bytes : List UInt8) (a b : Nat) : Option (List UInt8) :=
  if a ≤ b ∧ isCharBoundary bytes a ∧ isCharBoundary bytes b then
    some ((bytes.drop a).take (b - a))
  else none

/-- `split_resource_name`: scan from the right recording the latest `'.'`
byte-position guess and the first separator, then slice the input bytes into
`(dir, file, ext)`; `none` models a slicing panic. -/
def split_resource_name (input : List Char) :
    Option (List UInt8 × List UInt8 × List UInt8) :=
  let bytes := encodeUtf8 input
  let len := bytes.length
  let sc := splitScan input.reverse len 0 len
  do
    let dir ← sliceStr bytes 0 sc.2
    let file ← sliceStr bytes sc.2 sc.1
    let ext ← sliceStr bytes sc.1 len
    pure (dir, file, ext)

/-- `".éx"`: one 2-byte character after the dot shifts every computed byte
position right by one. -/
def c10Input : List Char := ['.', Char.ofNat 0xE9, 'x']

/-- `".éé"`: the shifted `ext_pos` lands in the middle of the first `é`. -/
def c10PanicInput : List Char := ['.', Char.ofNat 0xE9, Char.ofNat 0xE9]

/-- C10: the claim says that for every input the three parts of
`split_resource_name` concatenate back to the input and the stem contains no
`'.'`.  The function computes byte positions as `len() - (index + 1)` with a
CHARACTER index, so any multi-byte character shifts the positions: on
`".éx"` it returns stem `"."` (which contains a dot, refuting the claim,
while the spec's split-on-first-dot description clearly intends stem `""`
and ext `".éx"`), and on `".éé"` it panics slicing off a char boundary. -/
theorem c10_split_breaks_on_multibyte_input :
    split_resource_name c10Input = some ([], [0x2E], [0xC3, 0xA9, 0x78]) ∧
    ([0x2E] : List UInt8).contains 0x2E = true ∧
    encodeChar '.' = [0x2E] ∧
    split_resource_name c10PanicInput = none := by
  refine ⟨by decide, by decide, by decide, by decide⟩

/-! ## blp.rs (image decoder) -/

/-- `struct IndexedPixels`. -/
structure IndexedPixels where
  indexes : List UInt8
  alpha_values : Option (List UInt8)
deriving DecidableEq, Repr

/-- `enum Compression`. -/
inductive Compression where
  | DXT1 : Compression
  | DXT3 : Compression
  | DXT5 : Compression
deriving DecidableEq, Repr

/-- `enum ImageData` (palette entries are `(b, g, r)`, truecolor samples
`(b, g, r, a)`, exactly the fields the source keeps). -/
inductive ImageData where
  | TrueColor (mipmaps : List (List (UInt8 × UInt8 × UInt8 × UInt8)))
  | Indexed (palette : List (UInt8 × UInt8 × UInt8)) (full_alpha : Bool)
      (mipmaps : List IndexedPixels)
  | Compressed (compression : Compression) (mipmaps : List (List UInt8))
deriving DecidableEq, Repr

/-- `struct Image`. -/
structure Image where
  height : Nat
  width : Nat
  data : ImageData
deriving DecidableEq, Repr

/-- The mipmap block table of `load`: zip the offset table truncated at its
first zero with the size table truncated at ITS first zero (lines 103–107 of
blp.rs) — note both tables truncate, not just the offsets. -/
def mipmapBlocks (offsets sizes : List Nat) : List (Nat × Nat) :=
  (offsets.takeWhile (fun x => x ≠ 0)).zip (sizes.takeWhile (fun x => x ≠ 0))

/-- Index of the first zero entry of a table (its length when none is
zero). -/
def firstZeroIndex (l : List Nat) : Nat := (l.takeWhile (fun x => x ≠ 0)).length

/-- Read `n` little-endian `u32` values (the 16-slot offset/size tables). -/
def readU32s : (n : Nat) → Cursor → (acc : List Nat) → Res (List Nat × Cursor)
  | 0, c, acc => .ok (acc, c)
  | k + 1, c, acc => do
    let (v, c1) ← c.readU32
    readU32s k c1 (acc ++ [v])

/-- Read the 256-entry BGRA palette, keeping `(b, g, r)` per entry
(`read_u8tuple4` then `RGB8 { b: color.0, g: color.1, r: color.2 }`). -/
def readPalette : (n : Nat) → Cursor → (acc : List (UInt8 × UInt8 × UInt8)) →
    Res (List (UInt8 × UInt8 × UInt8) × Cursor)
  | 0, c, acc => .ok (acc, c)
  | k + 1, c, acc => do
    let (b0, c) ← c.readU8
    let (b1, c) ← c.readU8
    let (b2, c) ← c.readU8
    let (_, c) ← c.readU8
    readPalette k c (acc ++ [(b0, b1, b2)])

/-- The eight alpha bytes decoded from one packed 1-bit mask byte:
`byte & (1 << bit) != 0` selects `0xFF`, else `0x00`, for `bit` in `0..8`. -/
def alpha1Bits (byte : UInt8) : List UInt8 :=
  (List.range 8).map (fun bit =>
    if byte &&& ((1 : UInt8) <<< UInt8.ofNat bit) ≠ 0 then 0xFF else 0x00)

/-- `wh as f32` for a `u32` value `wh`: round to nearest, ties to even, at
the 24-bit `f32` significand.  For `wh ≤ 2^24` the conversion is exact;
above that the low `log2 wh − 23` bits round away.  The result is the exact
natural number the `f32` denotes (every `u32` rounds to a representable
integer, far below the `f32` range). -/
def natAsF32 (n : Nat) : Nat :=
  if n ≤ 2 ^ 24 then n
  else
    let e := n.log2 - 23
    let q := n / 2 ^ e
    let r := n % 2 ^ e
    if 2 * r < 2 ^ e then q * 2 ^ e
    else if 2 * r > 2 ^ e then (q + 1) * 2 ^ e
    else if q % 2 = 0 then q * 2 ^ e
    else (q + 1) * 2 ^ e

/-- The packed 1-bit loop bound of blp.rs line 141:
`((height * width) as f32 / 8.0).ceil() as u32`.  Only the `as f32`
conversion rounds: dividing a binary float by `8.0` is exact (exponent
decrement), and the ceiling of such a value at `u32` magnitude is itself
representable, so the count is exactly `⌈(wh as f32) / 8⌉`.  This differs
from `⌈wh / 8⌉` once `wh ≥ 2^24`. -/
def alpha1SourceBytes (wh : Nat) : Nat := (natAsF32 wh + 7) / 8

/-- Below `2^24` the `f32` detour of blp.rs line 141 is invisible. -/
theorem alpha1SourceBytes_small {wh : Nat} (h : wh ≤ 2 ^ 24) :
    alpha1SourceBytes wh = (wh + 7) / 8 := by
  unfold alpha1SourceBytes natAsF32
  rw [if_pos h]

/-- The packed 1-bit alpha loop: one source byte per iteration, eight decoded
bytes appended per source byte (no truncation to the pixel count). -/
def readAlpha1Loop : (n : Nat) → Cursor → (acc : List UInt8) →
    Res (List UInt8 × Cursor)
  | 0, c, acc => .ok (acc, c)
  | k + 1, c, acc => do
    let (byte, c1) ← c.readU8
    readAlpha1Loop k c1 (acc ++ alpha1Bits byte)

/-- One Indexed mipmap: seek to `offset`, wrap the stream in
`take(size)` (modelled by truncating the visible data at `offset + size`),
read `wh` palette indexes, then the alpha band selected by `alpha_depth`
(8 ⇒ `wh` raw bytes, 1 ⇒ `alpha1SourceBytes wh` packed source bytes,
mirroring the source's `((h * w) as f32 / 8.0).ceil()` including its `f32`
rounding — else no alpha), and unwrap via `into_inner`. -/
def readIndexedMip (wh : Nat) (alpha_depth : UInt8) (input : Cursor)
    (offset size : Nat) : Res (IndexedPixels × Cursor) := do
  let (indexes, block) ←
    ((Cursor.fresh (input.data.take (offset + size))).seekTo offset).readVec wh
  let (alpha, block) ←
    if alpha_depth = 8 then do
      let (a, block2) ← block.readVec wh
      pure (some a, block2)
    else if alpha_depth = 1 then do
      let (a, block2) ← readAlpha1Loop (alpha1SourceBytes wh) block []
      pure (some a, block2)
    else
      pure (none, block)
  pure (⟨indexes, alpha⟩, (Cursor.fresh input.data).seekTo block.pos)

/-- The Indexed per-mipmap loop. -/
def readIndexedMips (wh : Nat) (alpha_depth : UInt8) :
    (blocks : List (Nat × Nat)) → Cursor → (acc : List IndexedPixels) →
    Res (List IndexedPixels × Cursor)
  | [], c, acc => .ok (acc, c)
  | (off, size) :: rest, c, acc => do
    let (mp, c1) ← readIndexedMip wh alpha_depth c off size
    readIndexedMips wh alpha_depth rest c1 (acc ++ [mp])

/-- The Compressed per-mipmap loop: seek to each offset and copy `size` raw
bytes. -/
def readBlobMips : (blocks : List (Nat × Nat)) → Cursor →
    (acc : List (List UInt8)) → Res (List (List UInt8) × Cursor)
  | [], c, acc => .ok (acc, c)
  | (off, size) :: rest, c, acc => do
    let (blob, c1) ← (c.seekTo off).readVec size
    readBlobMips rest c1 (acc ++ [blob])

/-- One BGRA sample (`read_u8tuple4`). -/
def readTuple4 (c : Cursor) : Res ((UInt8 × UInt8 × UInt8 × UInt8) × Cursor) := do
  let (b0, c) ← c.readU8
  let (b1, c) ← c.readU8
  let (b2, c) ← c.readU8
  let (b3, c) ← c.readU8
  pure ((b0, b1, b2, b3), c)

/-- The TrueColor sample loop (`height × width` nested loops flattened). -/
def readTupleLoop : (n : Nat) → Cursor →
    (acc : List (UInt8 × UInt8 × UInt8 × UInt8)) →
    Res (List (UInt8 × UInt8 × UInt8 × UInt8) × Cursor)
  | 0, c, acc => .ok (acc, c)
  | k + 1, c, acc => do
    let (t, c1) ← readTuple4 c
    readTupleLoop k c1 (acc ++ [t])

/-- The TrueColor per-mipmap loop: seek to each offset, read
`height * width` BGRA samples (the nested `for` loops count in full
precision, unlike the Indexed branch's wrapped `u32` product). -/
def readTrueColorMips (hw : Nat) : (blocks : List (Nat × Nat)) → Cursor →
    (acc : List (List (UInt8 × UInt8 × UInt8 × UInt8))) →
    Res (List (List (UInt8 × UInt8 × UInt8 × UInt8)) × Cursor)
  | [], c, acc => .ok (acc, c)
  | (off, _) :: rest, c, acc => do
    let (pixels, c1) ← readTupleLoop hw (c.seekTo off) []
    readTrueColorMips hw rest c1 (acc ++ [pixels])

/-- The header fields `blp::load` reads before branching on the encoding. -/
structure BlpHeader where
  encoding : UInt8
  alpha_depth : UInt8
  preferred_format : UInt8
  has_mipmaps : UInt8
  width : Nat
  height : Nat
  offsets : List Nat
  sizes : List Nat
deriving DecidableEq, Repr

/-- The header part of `blp::load`: fixed `BLP2` magic, version (only 1
supported), encoding selector, alpha depth, preferred format, mipmap flag,
width and height, then the two parallel 16-slot `u32` tables.  An alpha
depth outside {0, 1, 8} is only a log warning. -/
def blpHeader (bytes : List UInt8) : Res (BlpHeader × Cursor) := do
  let c : Cursor := Cursor.fresh bytes
  let (magic, c) ← c.readVec 4
  if magic ≠ [66, 76, 80, 50] then .err .badMagic else do
  let (version, c) ← c.readU32
  let (encoding, c) ← c.readU8
  let (alpha_depth, c) ← c.readU8
  let (preferred_format, c) ← c.readU8
  let (has_mipmaps, c) ← c.readU8
  let (width, c) ← c.readU32
  let (height, c) ← c.readU32
  if version ≠ 1 then .err .unsupportedVersion else do
  let (offsets, c) ← readU32s 16 c []
  let (sizes, c) ← readU32s 16 c []
  pure (⟨encoding, alpha_depth, preferred_format, has_mipmaps,
    width, height, offsets, sizes⟩, c)

/-- `blp::load`, from the opened resource's bytes: parse the header, build
the mipmap block table, then decode the payload branch selected by the
encoding byte.  The Indexed branch's `(height * width)` `u32` product wraps
modulo `2^32` (release semantics); the TrueColor nested loops count in full
precision. -/
def blpLoad (bytes : List UInt8) : Res Image := do
  let (hdr, c) ← blpHeader bytes
  let mipmap_blocks := mipmapBlocks hdr.offsets hdr.sizes
  let wh := (hdr.height * hdr.width) % 2 ^ 32
  if hdr.encoding = 1 then do
    let (palette, c1) ← readPalette 256 c []
    let (mipmaps, _) ← readIndexedMips wh hdr.alpha_depth mipmap_blocks c1 []
    pure ⟨hdr.height, hdr.width, .Indexed palette (hdr.alpha_depth > 1) mipmaps⟩
  else if hdr.encoding = 2 then do
    let compression :=
      if hdr.alpha_depth = 8 ∧ hdr.preferred_format = 7 then Compression.DXT5
      else if hdr.alpha_depth = 8 ∨ hdr.alpha_depth = 4 then Compression.DXT3
      else Compression.DXT1
    let (mipmaps, _) ← readBlobMips mipmap_blocks c []
    pure ⟨hdr.height, hdr.width, .Compressed compression mipmaps⟩
  else if hdr.encoding = 3 then do
    let (mipmaps, _) ← readTrueColorMips (hdr.height * hdr.width) mipmap_blocks c []
    pure ⟨hdr.height, hdr.width, .TrueColor mipmaps⟩
  else
    .err .unsupportedEncoding

/-- Mipmap level count of a decoded image. -/
def blpMipCount (r : Res Image) : Option Nat :=
  match r with
  | .ok img =>
    match img.data with
    | .TrueColor m => some m.length
    | .Indexed _ _ m => some m.length
    | .Compressed _ m => some m.length
  | _ => none

/-- The wrapped `height * width` pixel count of a decoded image. -/
def blpWH (r : Res Image) : Option Nat :=
  match r with
  | .ok img => some (img.height * img.width % 2 ^ 32)
  | _ => none

/-- The mipmaps of a decoded Indexed image whose `full_alpha` flag is clear
(i.e. whose alpha depth was 0 or 1). -/
def blpIndexedNonFullMips (r : Res Image) : Option (List IndexedPixels) :=
  match r with
  | .ok img =>
    match img.data with
    | .Indexed _ false m => some m
    | _ => none
  | _ => none

/-- Per-mipmap alpha band lengths of a decoded Indexed image. -/
def blpAlphaLens (r : Res Image) : Option (List (Option Nat)) :=
  match r with
  | .ok img =>
    match img.data with
    | .Indexed _ _ mips => some (mips.map (fun mp => mp.alpha_values.map List.length))
    | _ => none
  | _ => none

/-- An image whose 16 mipmap offsets are all nonzero (value 1) but whose 16
sizes are all zero, with the TrueColor encoding so that zero mipmap levels
still decode successfully. -/
def c5Bytes : List UInt8 :=
  strBytes "BLP2" ++ le32 1 ++ [3, 0, 0, 0] ++ le32 1 ++ le32 1 ++
  (List.replicate 16 (le32 1)).flatten ++ (List.replicate 16 (le32 0)).flatten

/-- C5 counterexample: the claim says the effective mipmap count equals the
index of the first zero OFFSET regardless of the size table, and that an
all-nonzero offset table yields 16.  On a file whose offsets are all nonzero
but whose sizes are all zero, the decoder produces 0 levels, not 16. -/
theorem c5_all_nonzero_offsets_zero_sizes :
    blpMipCount (blpLoad c5Bytes) = some 0 ∧
    firstZeroIndex (List.replicate 16 1) = 16 ∧ (0 : Nat) ≠ 16 := by
  refine ⟨by rfl, by rfl, by decide⟩

/-- C5 (amended): the effective mipmap level count is the `zip` of the two
truncated tables, i.e. the MINIMUM of the index of the first zero offset and
the index of the first zero size; when both 16-slot tables are all nonzero
this is 16. -/
theorem c5_mipmap_count_min_of_both_tables (offsets sizes : List Nat) :
    (mipmapBlocks offsets sizes).length =
      min (firstZeroIndex offsets) (firstZeroIndex sizes) := by
  simp [mipmapBlocks, firstZeroIndex]

/-- Every decoded 1-bit alpha byte group has length 8 and values in
{0x00, 0xFF}. -/
theorem alpha1Bits_length (byte : UInt8) : (alpha1Bits byte).length = 8 := by
  simp [alpha1Bits]

theorem alpha1Bits_mem (byte : UInt8) :
    ∀ v ∈ alpha1Bits byte, v = 0x00 ∨ v = 0xFF := by
  intro v hv
  simp only [alpha1Bits, List.mem_map] at hv
  obtain ⟨bit, -, hv⟩ := hv
  by_cases hc : byte &&& ((1 : UInt8) <<< UInt8.ofNat bit) ≠ 0
  · rw [if_pos hc] at hv
    right; exact hv.symm
  · rw [if_neg hc] at hv
    left; exact hv.symm

theorem readAlpha1Loop_spec :
    ∀ (n : Nat) (c : Cursor) (acc a : List UInt8) (c' : Cursor),
    readAlpha1Loop n c acc = .ok (a, c') →
    a.length = acc.length + 8 * n ∧
    ∀ v ∈ a, v ∈ acc ∨ v = 0x00 ∨ v = 0xFF := by
  intro n
  induction n with
  | zero =>
    intro c acc a c' h
    simp only [readAlpha1Loop] at h
    cases h
    exact ⟨by omega, fun v hv => Or.inl hv⟩
  | succ k ih =>
    intro c acc a c' h
    simp only [readAlpha1Loop] at h
    cases hr : c.readU8 with
    | err e => rw [hr] at h; simp at h
    | crash => rw [hr] at h; simp at h
    | ok p =>
      obtain ⟨byte, c1⟩ := p
      rw [hr] at h
      simp only [Res.bind_ok] at h
      obtain ⟨hlen, hmem⟩ := ih c1 (acc ++ alpha1Bits byte) a c' h
      constructor
      · rw [hlen]
        simp [alpha1Bits_length]
        omega
      · intro v hv
        rcases hmem v hv with hin | hor
        · rcases List.mem_append.mp hin with h1 | h2
          · exact Or.inl h1
          · exact Or.inr (alpha1Bits_mem byte v h2)
        · exact Or.inr hor

/-- Property of one decoded Indexed mipmap when the alpha depth is at most 1:
any present alpha band has length `8 * ceil((wh as f32) / 8)` with values in
{0x00, 0xFF}. -/
theorem readIndexedMip_alpha_spec {wh : Nat} {depth : UInt8} {input : Cursor}
    {off size : Nat} {mp : IndexedPixels} {c' : Cursor}
    (h : readIndexedMip wh depth input off size = .ok (mp, c'))
    (hdep : ¬ depth > 1) :
    ∀ a, mp.alpha_values = some a →
      a.length = 8 * alpha1SourceBytes wh ∧ ∀ v ∈ a, v = 0x00 ∨ v = 0xFF := by
  intro a ha
  unfold readIndexedMip at h
  cases h1 : ((Cursor.fresh (input.data.take (off + size))).seekTo off).readVec wh with
  | err e => rw [h1] at h; simp at h
  | crash => rw [h1] at h; simp at h
  | ok p1 =>
    obtain ⟨indexes, block1⟩ := p1
    rw [h1] at h
    simp only [Res.bind_ok] at h
    have h8 : ¬ depth = 8 := by
      intro hd
      subst hd
      exact hdep (by decide)
    rw [if_neg h8] at h
    by_cases hd1 : depth = 1
    · rw [if_pos hd1] at h
      cases h2 : readAlpha1Loop (alpha1SourceBytes wh) block1 [] with
      | err e => rw [h2] at h; simp at h
      | crash => rw [h2] at h; simp at h
      | ok p2 =>
        obtain ⟨a2, block2⟩ := p2
        rw [h2] at h
        simp only [Res.bind_ok] at h
        cases h
        obtain ⟨hlen, hmem⟩ := readAlpha1Loop_spec _ _ _ _ _ h2
        simp only [IndexedPixels.alpha_values] at ha
        cases ha
        refine ⟨by simpa using hlen, ?_⟩
        intro v hv
        rcases hmem v hv with hin | hor
        · exact absurd hin (by simp)
        · exact hor
    · rw [if_neg hd1] at h
      simp only [Res.pure_eq, Res.bind_ok] at h
      cases h
      simp at ha

/-- A 1×1 Indexed image with alpha depth 1: magic, version 1, encoding 1,
depth 1, width 1, height 1, one mipmap block at byte offset 1172 (right
after the 1024-byte palette) of size 2, holding one palette index byte and
one packed alpha byte `0b00000001`. -/
def c6Bytes : List UInt8 :=
  strBytes "BLP2" ++ le32 1 ++ [1, 1, 0, 0] ++ le32 1 ++ le32 1 ++
  le32 1172 ++ (List.replicate 15 (le32 0)).flatten ++
  le32 2 ++ (List.replicate 15 (le32 0)).flatten ++
  List.replicate 1024 0 ++ [5, 1]

/-- The decoded shape of `c6Bytes`: a 1×1 Indexed image with an all-zero
palette and a single mipmap holding one index byte and an EIGHT-byte alpha
band. -/
theorem c6Bytes_load_shape :
    blpLoad c6Bytes =
      .ok ⟨1, 1, .Indexed (List.replicate 256 (0, 0, 0)) false
        [⟨[5], some [255, 0, 0, 0, 0, 0, 0, 0]⟩]⟩ := by rfl

/-- C6 counterexample: the claim says the decoded alpha band of an Indexed
image with alpha depth 1 has length exactly `width × height`.  On a 1×1
image the single packed source byte expands to EIGHT alpha bytes (the
decoder never truncates the last group), so the band length is 8, not 1. -/
theorem c6_one_by_one_alpha_len_8 :
    blpAlphaLens (blpLoad c6Bytes) = some [some 8] ∧
    blpWH (blpLoad c6Bytes) = some 1 ∧ (8 : Nat) ≠ 1 := by
  rw [c6Bytes_load_shape]
  refine ⟨by rfl, by rfl, by decide⟩

/-- The Indexed mipmap loop propagates the alpha-band shape property. -/
theorem readIndexedMips_spec {wh : Nat} {depth : UInt8} (hdep : ¬ depth > 1) :
    ∀ (blocks : List (Nat × Nat)) (c : Cursor) (acc out : List IndexedPixels)
      (c' : Cursor),
    readIndexedMips wh depth blocks c acc = .ok (out, c') →
    (∀ mp ∈ acc, ∀ a, mp.alpha_values = some a →
      a.length = 8 * alpha1SourceBytes wh ∧ ∀ v ∈ a, v = 0x00 ∨ v = 0xFF) →
    ∀ mp ∈ out, ∀ a, mp.alpha_values = some a →
      a.length = 8 * alpha1SourceBytes wh ∧ ∀ v ∈ a, v = 0x00 ∨ v = 0xFF := by
  intro blocks
  induction blocks with
  | nil =>
    intro c acc out c' h hacc
    simp only [readIndexedMips] at h
    cases h
    exact hacc
  | cons b rest ih =>
    obtain ⟨off, size⟩ := b
    intro c acc out c' h hacc
    simp only [readIndexedMips] at h
    cases h1 : readIndexedMip wh depth c off size with
    | err e => rw [h1] at h; simp at h
    | crash => rw [h1] at h; simp at h
    | ok p =>
      obtain ⟨mp, c1⟩ := p
      rw [h1] at h
      simp only [Res.bind_ok] at h
      refine ih c1 (acc ++ [mp]) out c' h ?_
      intro mp2 hmp2
      rcases List.mem_append.mp hmp2 with hin | hone
      · exact hacc mp2 hin
      · have : mp2 = mp := by simpa using hone
        subst this
        exact readIndexedMip_alpha_spec h1 hdep

/-- C6 (amended): for every successfully decoded Indexed image whose
`full_alpha` flag is clear (alpha depth 0 or 1) and every mipmap level, any
present alpha band (present exactly when the depth was 1) has length
`8 * ⌈(wh as f32) / 8⌉` (the loop bound of blp.rs line 141 with its `f32`
rounding; equal to `8 * ⌈wh / 8⌉` for `wh ≤ 2^24`, and exceeding
`wh = width × height` whenever `wh` is not a multiple of 8) — and every
decoded value is 0x00 or 0xFF. -/
theorem c6_indexed_alpha1_band_shape (bytes : List UInt8)
    (mips : List IndexedPixels) (wh : Nat)
    (hm : blpIndexedNonFullMips (blpLoad bytes) = some mips)
    (hwh : blpWH (blpLoad bytes) = some wh) :
    ∀ mp ∈ mips, ∀ a, mp.alpha_values = some a →
      a.length = 8 * alpha1SourceBytes wh ∧ ∀ v ∈ a, v = 0x00 ∨ v = 0xFF := by
  unfold blpLoad at hm hwh
  cases hH : blpHeader bytes with
  | err e => rw [hH] at hm; simp [blpIndexedNonFullMips] at hm
  | crash => rw [hH] at hm; simp [blpIndexedNonFullMips] at hm
  | ok p =>
    obtain ⟨hdr, c⟩ := p
    rw [hH] at hm hwh
    simp only [Res.bind_ok] at hm hwh
    by_cases he1 : hdr.encoding = 1
    · rw [if_pos he1] at hm hwh
      cases hp : readPalette 256 c [] with
      | err e => rw [hp] at hm; simp [blpIndexedNonFullMips] at hm
      | crash => rw [hp] at hm; simp [blpIndexedNonFullMips] at hm
      | ok p2 =>
        obtain ⟨palette, c1⟩ := p2
        rw [hp] at hm hwh
        simp only [Res.bind_ok] at hm hwh
        cases hmips : readIndexedMips (hdr.height * hdr.width % 2 ^ 32)
            hdr.alpha_depth (mipmapBlocks hdr.offsets hdr.sizes) c1 [] with
        | err e => rw [hmips] at hm; simp [blpIndexedNonFullMips] at hm
        | crash => rw [hmips] at hm; simp [blpIndexedNonFullMips] at hm
        | ok p3 =>
          obtain ⟨mipmaps, c2⟩ := p3
          rw [hmips] at hm hwh
          simp only [Res.bind_ok] at hm hwh
          simp only [Res.pure_eq, blpIndexedNonFullMips, blpWH] at hm hwh
          by_cases hgt : hdr.alpha_depth > 1
          · simp [hgt] at hm
          · have hmips2 : mipmaps = mips := by simpa [hgt] using hm
            have hwh2 : hdr.height * hdr.width % 2 ^ 32 = wh := by
              simpa using hwh
            subst hmips2
            rw [hwh2] at hmips
            exact readIndexedMips_spec hgt _ _ _ _ _ hmips (by simp)
    · exfalso
      rw [if_neg he1] at hm
      by_cases he2 : hdr.encoding = 2
      · rw [if_pos he2] at hm
        cases hb : readBlobMips (mipmapBlocks hdr.offsets hdr.sizes) c [] with
        | err e => rw [hb] at hm; simp [blpIndexedNonFullMips] at hm
        | crash => rw [hb] at hm; simp [blpIndexedNonFullMips] at hm
        | ok p2 =>
          rw [hb] at hm
          obtain ⟨m2, c2⟩ := p2
          simp [blpIndexedNonFullMips] at hm
      · rw [if_neg he2] at hm
        by_cases he3 : hdr.encoding = 3
        · rw [if_pos he3] at hm
          cases ht : readTrueColorMips (hdr.height * hdr.width)
              (mipmapBlocks hdr.offsets hdr.sizes) c [] with
          | err e => rw [ht] at hm; simp [blpIndexedNonFullMips] at hm
          | crash => rw [ht] at hm; simp [blpIndexedNonFullMips] at hm
          | ok p2 =>
            rw [ht] at hm
            obtain ⟨m2, c2⟩ := p2
            simp [blpIndexedNonFullMips] at hm
        · rw [if_neg he3] at hm
          simp [blpIndexedNonFullMips] at hm

/-- Witness for C6 (amended) at the concrete 1×1 depth-1 image: the single
mipmap's alpha band has length `8 * alpha1SourceBytes 1 = 8` and 0x00/0xFF
values. -/
theorem c6_indexed_alpha1_band_shape_witness :
    ([255, 0, 0, 0, 0, 0, 0, 0] : List UInt8).length = 8 * alpha1SourceBytes 1 ∧
    ∀ v ∈ ([255, 0, 0, 0, 0, 0, 0, 0] : List UInt8), v = 0x00 ∨ v = 0xFF :=
  c6_indexed_alpha1_band_shape c6Bytes
    [⟨[5], some [255, 0, 0, 0, 0, 0, 0, 0]⟩] 1
    (by rw [c6Bytes_load_shape]; rfl) (by rw [c6Bytes_load_shape]; rfl)
    ⟨[5], some [255, 0, 0, 0, 0, 0, 0, 0]⟩ (by simp)
    [255, 0, 0, 0, 0, 0, 0, 0] rfl

/-! ## The chunk iterator used by adt.rs and wmo.rs -/

/-- One chunk record as produced by the streaming iterator. -/
structure Chunk where
  token : List UInt8
  data : List UInt8
deriving DecidableEq, Repr

/-- Modelled from the spec: the streaming `chunked` module that `adt.rs` and
`wmo.rs` consume via `Chunked::new(input)` (an iterator of `Chunk` records
with `token` and `data` fields) is not under `src/` — `lib.rs` declares both
`chunked_old` and `chunked`, and the file present is the map-based sibling.
Per spec §4.1/§6: read 4 token bytes (mirrored in the default dialect), a
4-byte little-endian length, then that many payload bytes; zero bytes read
is a clean end of the sequence; 1–3 bytes is a truncation condition reported
as an error, and an unreadable token is invalid data, both matching the
sibling module in `src/`.  Parses one record and returns the advanced
cursor, or `none` at clean end. -/
def parseChunkAt (c : Cursor) : Res (Option (Chunk × Cursor)) :=
  if (c.readInto 4).1.length = 0 then .ok none
  else if (c.readInto 4).1.length < 4 then .err .incompleteToken
  else
    if validUtf8 ((c.readInto 4).1.reverse) then
      match (c.readInto 4).2.readU32 with
      | .err e => .err e
      | .crash => .crash
      | .ok (size, c2) =>
        .ok (some (⟨(c.readInto 4).1.reverse, (c2.takeRead size).1⟩,
          (c2.takeRead size).2))
    else .err .invalidUtf8

theorem Cursor.readVec_no_crash (c : Cursor) (n : Nat) : c.readVec n ≠ .crash := by
  unfold Cursor.readVec
  split <;> simp

theorem Cursor.readU32_no_crash (c : Cursor) : c.readU32 ≠ .crash := by
  unfold Cursor.readU32
  cases hv : c.readVec 4 with
  | ok p => simp
  | err e => simp
  | crash => exact absurd hv (Cursor.readVec_no_crash c 4)

/-- The spec-modelled parse step never panics. -/
theorem parseChunkAt_no_crash (c : Cursor) : parseChunkAt c ≠ .crash := by
  unfold parseChunkAt
  split
  · simp
  · split
    · simp
    · split
      · split
        · simp
        · rename_i heq
          exact absurd heq (Cursor.readU32_no_crash _)
        · simp
      · simp

theorem parseChunkAt_remaining {c : Cursor} {ck : Chunk} {c' : Cursor}
    (h : parseChunkAt c = .ok (some (ck, c'))) : c'.remaining < c.remaining := by
  unfold parseChunkAt at h
  split at h
  · simp at h
  · split at h
    · simp at h
    · rename_i h0 h4
      split at h
      · split at h
        · simp at h
        · simp at h
        · rename_i size c2 heq
          simp only [Res.ok.injEq, Option.some.injEq, Prod.mk.injEq] at h
          obtain ⟨-, hc⟩ := h
          subst hc
          have a1 := Cursor.takeRead_remaining_eq c 4
          have a2 := Cursor.readU32_remaining heq
          have a3 := Cursor.takeRead_remaining c2 size
          have a5 := Cursor.takeRead_length_le_remaining c 4
          simp only [Cursor.readInto] at *
          omega
      · simp at h

/-- The `for chunk in Chunked::new(input)` loop shared by the terrain and
world-model decoders: parse one record, process it, recurse; a parse or
processing error aborts with that error, and a clean end returns the
accumulated state. -/
def chunkFold {σ : Type} (step : σ → Chunk → Res σ) :
    (fuel : Nat) → (c : Cursor) → σ → c.remaining < fuel → Res σ
  | 0, _, _, h => absurd h (Nat.not_lt_zero _)
  | fuel + 1, c, s, h =>
    match hp : parseChunkAt c with
    | .err e => .err e
    | .crash => .crash
    | .ok none => .ok s
    | .ok (some (ck, c')) =>
      match step s ck with
      | .err e => .err e
      | .crash => .crash
      | .ok s' =>
        chunkFold step fuel c' s'
          (by have := parseChunkAt_remaining hp; omega)

/-- Number of records with a given token in the parseable prefix of a
stream (exact whenever `fuel` exceeds the number of records, which holds
for `length + 1` since every record consumes at least one byte). -/
def countChunks (tok : List UInt8) : (fuel : Nat) → (c : Cursor) → Nat
  | 0, _ => 0
  | fuel + 1, c =>
    match parseChunkAt c with
    | .ok (some (ck, c')) =>
      (if ck.token = tok then 1 else 0) + countChunks tok fuel c'
    | _ => 0

/-- State invariants survive a successful `chunkFold` when every step
preserves them. -/
theorem chunkFold_ok_inv {σ : Type} (step : σ → Chunk → Res σ) (P : σ → Prop)
    (hstep : ∀ s ck s', step s ck = .ok s' → P s → P s') :
    ∀ (fuel : Nat) (c : Cursor) (s : σ) (h : c.remaining < fuel) (s' : σ),
    chunkFold step fuel c s h = .ok s' → P s → P s' := by
  intro fuel
  induction fuel with
  | zero => intro c s h; exact absurd h (Nat.not_lt_zero _)
  | succ k ih =>
    intro c s h s' hfold hP
    simp only [chunkFold] at hfold
    split at hfold
    · simp at hfold
    · simp at hfold
    · cases hfold; exact hP
    · rename_i ck c' hp
      split at hfold
      · simp at hfold
      · simp at hfold
      · rename_i s1 hs1
        exact ih c' s1 _ s' hfold (hstep s ck s1 hs1 hP)

/-- `chunkFold` never crashes when no reachable step can crash. -/
theorem chunkFold_no_crash {σ : Type} (step : σ → Chunk → Res σ) (P : σ → Prop)
    (hstep : ∀ s ck, P s → step s ck ≠ .crash ∧ ∀ s', step s ck = .ok s' → P s') :
    ∀ (fuel : Nat) (c : Cursor) (s : σ) (h : c.remaining < fuel),
    P s → chunkFold step fuel c s h ≠ .crash := by
  intro fuel
  induction fuel with
  | zero => intro c s h; exact absurd h (Nat.not_lt_zero _)
  | succ k ih =>
    intro c s h hP hfold
    simp only [chunkFold] at hfold
    split at hfold
    · simp at hfold
    · rename_i hp
      exact parseChunkAt_no_crash c hp
    · simp at hfold
    · rename_i ck c' hp
      split at hfold
      · simp at hfold
      · rename_i hs1
        exact (hstep s ck hP).1 hs1
      · rename_i s1 hs1
        exact ih c' s1 _ ((hstep s ck hP).2 s1 hs1) hfold

/-! ## Offset-addressed C-string tables (read_ext.rs) -/

/-- The scan state machine of `read_cstring_table_with`: maximal runs of
nonzero bytes, each tagged with the byte offset of its first byte
(`at_string` holds exactly when the buffer is nonempty); the final
unterminated run is flushed at end of input; a run that is not valid UTF-8
is an `InvalidData` error. -/
def cstringLoop : (bytes : List UInt8) → (index : Nat) →
    (buffer : List UInt8) → (string_id : Nat) → Res (List (Nat × List UInt8))
  | [], _, buffer, string_id =>
    if buffer.isEmpty then .ok []
    else if validUtf8 buffer then .ok [(string_id, buffer)]
    else .err .invalidUtf8
  | b :: rest, index, buffer, string_id =>
    if b ≠ 0 then
      cstringLoop rest (index + 1) (buffer ++ [b])
        (if buffer.isEmpty then index else string_id)
    else if buffer.isEmpty then
      cstringLoop rest (index + 1) buffer string_id
    else if validUtf8 buffer then do
      let l ← cstringLoop rest (index + 1) [] 0
      pure ((string_id, buffer) :: l)
    else .err .invalidUtf8

/-- `read_cstring_table_with` over a chunk's payload: the (offset, string)
runs in stream order. -/
def cstringRuns (bytes : List UInt8) : Res (List (Nat × List UInt8)) :=
  cstringLoop bytes 0 [] 0

/-- `BTreeMap::insert` on an offset-keyed table. -/
def assocInsert {α : Type} (m : List (Nat × α)) (k : Nat) (v : α) :
    List (Nat × α) :=
  if m.any (fun p => p.1 = k) then
    m.map (fun p => if p.1 = k then (k, v) else p)
  else m ++ [(k, v)]

/-- `BTreeMap::get`. -/
def assocGet {α : Type} (m : List (Nat × α)) (k : Nat) : Option α :=
  (m.find? (fun p => p.1 = k)).map (fun p => p.2)

/-- `BTreeMap::remove`: the removed value and the remaining table. -/
def assocRemove {α : Type} : (m : List (Nat × α)) → (k : Nat) →
    Option (α × List (Nat × α))
  | [], _ => none
  | (k', v) :: rest, k =>
    if k' = k then some (v, rest)
    else (assocRemove rest k).map (fun p => (p.1, (k', v) :: p.2))

/-! ## wmo.rs (world-model root decoder) -/

/-- `struct Material` — `texture_id` is never populated by the current
code (the MOMT push is commented out). -/
structure Material where
  texture_id : Option Nat
deriving DecidableEq, Repr

/-- `struct MeshGroupInfo`; the six bounding-box floats are kept as raw
little-endian `u32` bit patterns. -/
structure MeshGroupInfo where
  resource_key : List UInt8
  flags : Nat
  bounding_box_min : Nat × Nat × Nat
  bounding_box_max : Nat × Nat × Nat
  name : Option (List UInt8)
deriving DecidableEq, Repr

/-- `struct MapObject`. -/
structure MapObject where
  textures : List (List UInt8)
  m2 : List (List UInt8)
  materials : List Material
  groups : List MeshGroupInfo
deriving DecidableEq, Repr

/-- The local state of `wmo::load`: the object under construction plus the
three offset-keyed scratch tables. -/
structure WmoState where
  obj : MapObject
  textures_index : List (Nat × Nat)
  group_names_table : List (Nat × List UInt8)
  m2_table : List (Nat × List UInt8)
deriving DecidableEq, Repr

/-- Decimal ASCII digits of a number. -/
def natDecimal (n : Nat) : List UInt8 :=
  (Nat.toDigits 10 n).map (fun ch => UInt8.ofNat ch.toNat)

/-- Rust `{:03}` formatting: decimal digits zero-padded to width 3. -/
def pad3 (n : Nat) : List UInt8 :=
  List.replicate (3 - (natDecimal n).length) 48 ++ natDecimal n

/-- The `MVER` check common to root and group files: a 4-byte version that
must equal 17. -/
def readMVER (data : List UInt8) : Res Unit := do
  let (version, _) ← (Cursor.fresh data).readU32
  if version ≠ 17 then .err .unsupportedVersion else .ok ()

/-- The `MOHD` header reads: seven `u32` counts, an RGBA byte quad, the WMO
id, two 3×`f32` bounding-box corners (bit patterns) and two `u16`s; all
dropped after reading. -/
def readMOHD (c : Cursor) : Res Unit := do
  let (_num_materials, c) ← c.readU32
  let (_num_groups, c) ← c.readU32
  let (_num_portals, c) ← c.readU32
  let (_num_lights, c) ← c.readU32
  let (_num_doodad_names, c) ← c.readU32
  let (_num_doodad_defs, c) ← c.readU32
  let (_num_doodad_sets, c) ← c.readU32
  let (_ambient_color, c) ← readTuple4 c
  let (_wmo_id, c) ← c.readU32
  let (_bb_min_x, c) ← c.readU32
  let (_bb_min_y, c) ← c.readU32
  let (_bb_min_z, c) ← c.readU32
  let (_bb_max_x, c) ← c.readU32
  let (_bb_max_y, c) ← c.readU32
  let (_bb_max_z, c) ← c.readU32
  let (_flags, c) ← c.readU16
  let (_num_lod, _) ← c.readU16
  pure ()

/-- One 64-byte-stride `MOMT` record: seek to `index * 64` and read the
twelve fields (48 bytes); nothing is retained — the material push is
commented out in the source. -/
def momtLoop : (count : Nat) → (idx : Nat) → (data : List UInt8) → Res Unit
  | 0, _, _ => .ok ()
  | k + 1, idx, data => do
    let c := (Cursor.fresh data).seekTo (idx * 64)
    let (_flags, c) ← c.readU32
    let (_shader_id, c) ← c.readU32
    let (_blend_mod, c) ← c.readU32
    let (_diffuse_name_index, c) ← c.readU32
    let (_emissive_color, c) ← readTuple4 c
    let (_sidn_emissive_color, c) ← readTuple4 c
    let (_env_name_index, c) ← c.readU32
    let (_diff_color, c) ← c.readU32
    let (_ground_type, c) ← c.readU32
    let (_texture_2, c) ← c.readU32
    let (_color_2, c) ← c.readU32
    let (_flags_2, _) ← c.readU32
    momtLoop k (idx + 1) data

/-- The `MOTX` closure: push each path and record offset → dense index. -/
def motxApply (s : WmoState) (runs : List (Nat × List UInt8)) : WmoState :=
  runs.foldl
    (fun st r =>
      { st with
        obj := { st.obj with textures := st.obj.textures ++ [r.2] }
        textures_index := assocInsert st.textures_index r.1 st.obj.textures.length })
    s

/-- One 32-byte `MOGI` record per expected group: flags, bounding box, and a
signed name offset resolved against the group-name table; the companion
resource key is `format!("{}{}_{:03}.wmo", dir, file, index)` where
`(dir, file, _)` is `split_resource_name(name)` (whose slicing can panic). -/
def mogiLoop (name : List Char) (gnames : List (Nat × List UInt8)) :
    (count : Nat) → (idx : Nat) → Cursor → (groups : List MeshGroupInfo) →
    Res (List MeshGroupInfo × Cursor)
  | 0, _, cur, groups => .ok (groups, cur)
  | k + 1, idx, cur, groups => do
    let (flags, cur) ← cur.readU32
    let (bb_min_x, cur) ← cur.readU32
    let (bb_min_y, cur) ← cur.readU32
    let (bb_min_z, cur) ← cur.readU32
    let (bb_max_x, cur) ← cur.readU32
    let (bb_max_y, cur) ← cur.readU32
    let (bb_max_z, cur) ← cur.readU32
    let (name_offset, cur) ← cur.readU32
    let group_name :=
      if name_offset < 2 ^ 31 then assocGet gnames name_offset else none
    match split_resource_name name with
    | none => .crash
    | some parts =>
      mogiLoop name gnames k (idx + 1) cur
        (groups ++ [⟨parts.1 ++ parts.2.1 ++ [95] ++ pad3 idx ++ strBytes ".wmo",
          flags, (bb_min_x, bb_min_y, bb_min_z), (bb_max_x, bb_max_y, bb_max_z),
          group_name⟩])

/-- Token byte strings used by the world-model decoder. -/
def tokMVER : List UInt8 := strBytes "MVER"
def tokMOHD : List UInt8 := strBytes "MOHD"
def tokMOTX : List UInt8 := strBytes "MOTX"
def tokMOMT : List UInt8 := strBytes "MOMT"
def tokMOGN : List UInt8 := strBytes "MOGN"
def tokMOGI : List UInt8 := strBytes "MOGI"
def tokMODN : List UInt8 := strBytes "MODN"

/-- One branch of the `wmo::load` chunk match. -/
def wmoStep (name : List Char) (s : WmoState) (ck : Chunk) : Res WmoState :=
  if ck.token = tokMVER then do
    let _ ← readMVER ck.data
    .ok s
  else if ck.token = tokMOHD then do
    let _ ← readMOHD (Cursor.fresh ck.data)
    .ok s
  else if ck.token = tokMOTX then do
    let runs ← cstringRuns ck.data
    .ok (motxApply s runs)
  else if ck.token = tokMOMT then do
    let _ ← momtLoop (ck.data.length / 64) 0 ck.data
    .ok s
  else if ck.token = tokMOGN then do
    let runs ← cstringRuns ck.data
    let gnt := runs.foldl (fun m r => assocInsert m r.1 r.2) s.group_names_table
    .ok { s with group_names_table := gnt }
  else if ck.token = tokMOGI then do
    let (groups, _) ← mogiLoop name s.group_names_table
      (ck.data.length / 32) 0 (Cursor.fresh ck.data) s.obj.groups
    .ok { s with obj := { s.obj with groups := groups } }
  else if ck.token = tokMODN then do
    let runs ← cstringRuns ck.data
    let m2t := runs.foldl (fun m r => assocInsert m r.1 r.2) s.m2_table
    .ok { s with m2_table := m2t }
  else
    -- MODS, MODD and unknown tokens are skipped.
    .ok s

/-- The empty `MapObject` the load starts from. -/
def wmoInit : WmoState := ⟨⟨[], [], [], []⟩, [], [], []⟩

/-- `wmo::load` over the root resource's bytes (the chunk stream is the
spec-modelled iterator). -/
def wmoLoad (name : List Char) (bytes : List UInt8) : Res MapObject := do
  let st ← chunkFold (wmoStep name) ((Cursor.fresh bytes).remaining + 1)
    (Cursor.fresh bytes) wmoInit (Nat.lt_succ_self _)
  pure st.obj

/-- Number of `MOGI` chunks in the parseable prefix of a root stream. -/
def wmoMogiCount (bytes : List UInt8) : Nat :=
  countChunks tokMOGI ((Cursor.fresh bytes).remaining + 1) (Cursor.fresh bytes)

/-- Length of the materials list of a decoded world model. -/
def wmoMaterialsLen (r : Res MapObject) : Option Nat :=
  match r with
  | .ok m => some m.materials.length
  | _ => none

/-- Companion resource key of group `k` of a decoded world model. -/
def wmoGroupKey (r : Res MapObject) (k : Nat) : Option (List UInt8) :=
  match r with
  | .ok m => (m.groups.get? k).map (fun g => g.resource_key)
  | _ => none

/-- Inversion for a successful monadic bind. -/
theorem Res.bind_eq_ok {α β : Type} {m : Res α} {f : α → Res β} {b : β}
    (h : (m >>= f) = .ok b) : ∃ a, m = .ok a ∧ f a = .ok b := by
  cases m with
  | ok a => exact ⟨a, rfl, by simpa using h⟩
  | err e => simp at h
  | crash => simp at h

/-- `motxApply` only touches the texture list and texture index. -/
theorem motxApply_parts (runs : List (Nat × List UInt8)) :
    ∀ (s : WmoState),
    (motxApply s runs).obj.materials = s.obj.materials ∧
    (motxApply s runs).obj.groups = s.obj.groups ∧
    (motxApply s runs).group_names_table = s.group_names_table := by
  induction runs with
  | nil => intro s; exact ⟨rfl, rfl, rfl⟩
  | cons r rest ih =>
    intro s
    simpa [motxApply, List.foldl_cons] using ih _

/-- Facts about one step of the world-model chunk loop: no branch appends
a material, and only the `MOGI` branch touches the group list. -/
theorem wmoStep_parts {name : List Char} {s : WmoState} {ck : Chunk}
    {s' : WmoState} (h : wmoStep name s ck = .ok s') :
    s'.obj.materials = s.obj.materials ∧
    (ck.token ≠ tokMOGI → s'.obj.groups = s.obj.groups) := by
  unfold wmoStep at h
  by_cases h1 : ck.token = tokMVER
  · rw [if_pos h1] at h
    obtain ⟨u, -, h2⟩ := Res.bind_eq_ok h
    simp at h2
    rw [← h2]
    exact ⟨rfl, fun _ => rfl⟩
  · rw [if_neg h1] at h
    by_cases h2c : ck.token = tokMOHD
    · rw [if_pos h2c] at h
      obtain ⟨u, -, h2⟩ := Res.bind_eq_ok h
      simp at h2
      rw [← h2]
      exact ⟨rfl, fun _ => rfl⟩
    · rw [if_neg h2c] at h
      by_cases h3c : ck.token = tokMOTX
      · rw [if_pos h3c] at h
        obtain ⟨runs, -, h2⟩ := Res.bind_eq_ok h
        simp at h2
        rw [← h2]
        exact ⟨(motxApply_parts runs s).1, fun _ => (motxApply_parts runs s).2.1⟩
      · rw [if_neg h3c] at h
        by_cases h4c : ck.token = tokMOMT
        · rw [if_pos h4c] at h
          obtain ⟨u, -, h2⟩ := Res.bind_eq_ok h
          simp at h2
          rw [← h2]
          exact ⟨rfl, fun _ => rfl⟩
        · rw [if_neg h4c] at h
          by_cases h5c : ck.token = tokMOGN
          · rw [if_pos h5c] at h
            obtain ⟨runs, -, h2⟩ := Res.bind_eq_ok h
            simp at h2
            rw [← h2]
            exact ⟨rfl, fun _ => rfl⟩
          · rw [if_neg h5c] at h
            by_cases h6c : ck.token = tokMOGI
            · rw [if_pos h6c] at h
              obtain ⟨p, -, h2⟩ := Res.bind_eq_ok h
              obtain ⟨groups, cur⟩ := p
              simp at h2
              rw [← h2]
              exact ⟨rfl, fun hne => absurd h6c hne⟩
            · rw [if_neg h6c] at h
              by_cases h7c : ck.token = tokMODN
              · rw [if_pos h7c] at h
                obtain ⟨runs, -, h2⟩ := Res.bind_eq_ok h
                simp at h2
                rw [← h2]
                exact ⟨rfl, fun _ => rfl⟩
              · rw [if_neg h7c] at h
                simp at h
                rw [← h]
                exact ⟨rfl, fun _ => rfl⟩

/-- C4 (amended): after every successful world-model root load the
materials list is EMPTY — the `MOMT` branch parses the 64-byte-stride
records but the push of the resolved material is commented out, so no
record count ever reaches the materials list. -/
theorem c4_materials_list_always_empty (name : List Char) (bytes : List UInt8) :
    (wmoMaterialsLen (wmoLoad name bytes)).getD 0 = 0 := by
  unfold wmoLoad
  cases hf : chunkFold (wmoStep name) ((Cursor.fresh bytes).remaining + 1)
      (Cursor.fresh bytes) wmoInit (Nat.lt_succ_self _) with
  | err e => simp [wmoMaterialsLen]
  | crash => simp [wmoMaterialsLen]
  | ok st =>
    have hmat : st.obj.materials = [] := by
      have := chunkFold_ok_inv (wmoStep name)
        (fun s => s.obj.materials = [])
        (fun s ck s' hs hP => by
          show s'.obj.materials = []
          rw [(wmoStep_parts hs).1]; exact hP)
        _ _ _ _ _ hf rfl
      exact this
    simp [wmoMaterialsLen, hmat]

/-- A root with one `MVER` chunk and one 64-byte `MOMT` chunk. -/
def c4Bytes : List UInt8 :=
  encodeChunk (strBytes "MVER") (le32 17) ++
  encodeChunk (strBytes "MOMT") (List.replicate 64 0)

/-- C4 counterexample: the claim says a successful load of a root whose
material chunk has `n` 64-byte records yields `n` materials, each resolving
its texture offset.  On a root with one such record the load succeeds with
ZERO materials: the resolution-and-push code is commented out. -/
theorem c4_one_record_zero_materials :
    wmoMaterialsLen (wmoLoad [] c4Bytes) = some 0 ∧
    (List.replicate (α := UInt8) 64 0).length / 64 = 1 ∧ (0 : Nat) ≠ 1 := by
  refine ⟨by rfl, by rfl, by decide⟩

/-- The `MOGI` records produce exactly the zero-padded companion keys, in
record order, appended after the existing groups. -/
theorem mogiLoop_keys (name : List Char) (gnames : List (Nat × List UInt8))
    (d f e : List UInt8)
    (hsplit : split_resource_name name = some (d, f, e)) :
    ∀ (count idx : Nat) (cur : Cursor) (groups groups' : List MeshGroupInfo)
      (cur' : Cursor),
    mogiLoop name gnames count idx cur groups = .ok (groups', cur') →
    groups'.length = groups.length + count ∧
    (∀ j, j < groups.length → groups'.get? j = groups.get? j) ∧
    (∀ j, j < count →
      (groups'.get? (groups.length + j)).map (fun g => g.resource_key) =
        some (d ++ f ++ [95] ++ pad3 (idx + j) ++ strBytes ".wmo")) := by
  intro count
  induction count with
  | zero =>
    intro idx cur groups groups' cur' h
    simp only [mogiLoop] at h
    obtain ⟨h1, h2⟩ : groups = groups' ∧ cur = cur' := by
      simpa using h
    subst h1
    exact ⟨by omega, fun j hj => rfl, fun j hj => absurd hj (by omega)⟩
  | succ k ih =>
    intro idx cur groups groups' cur' h
    simp only [mogiLoop] at h
    obtain ⟨p1, -, h⟩ := Res.bind_eq_ok h; obtain ⟨flags, cur1⟩ := p1
    simp only [Res.bind_ok] at h
    obtain ⟨p2, -, h⟩ := Res.bind_eq_ok h; obtain ⟨b1, cur2⟩ := p2
    simp only [Res.bind_ok] at h
    obtain ⟨p3, -, h⟩ := Res.bind_eq_ok h; obtain ⟨b2, cur3⟩ := p3
    simp only [Res.bind_ok] at h
    obtain ⟨p4, -, h⟩ := Res.bind_eq_ok h; obtain ⟨b3, cur4⟩ := p4
    simp only [Res.bind_ok] at h
    obtain ⟨p5, -, h⟩ := Res.bind_eq_ok h; obtain ⟨b4, cur5⟩ := p5
    simp only [Res.bind_ok] at h
    obtain ⟨p6, -, h⟩ := Res.bind_eq_ok h; obtain ⟨b5, cur6⟩ := p6
    simp only [Res.bind_ok] at h
    obtain ⟨p7, -, h⟩ := Res.bind_eq_ok h; obtain ⟨b6, cur7⟩ := p7
    simp only [Res.bind_ok] at h
    obtain ⟨p8, -, h⟩ := Res.bind_eq_ok h; obtain ⟨noff, cur8⟩ := p8
    simp only [Res.bind_ok] at h
    rw [hsplit] at h
    simp only [] at h
    set G : MeshGroupInfo :=
      ⟨d ++ f ++ [95] ++ pad3 idx ++ strBytes ".wmo",
        flags, (b1, b2, b3), (b4, b5, b6),
        if noff < 2 ^ 31 then assocGet gnames noff else none⟩ with hG
    obtain ⟨hlen, hpres, hkeys⟩ := ih (idx + 1) cur8 (groups ++ [G]) groups' cur' h
    refine ⟨by simp at hlen; omega, ?_, ?_⟩
    · intro j hj
      rw [hpres j (by simp; omega)]
      exact List.get?_append hj
    · intro j hj
      match j with
      | 0 =>
        have h0 : groups'.get? (groups.length + 0) = some G := by
          have := hpres groups.length (by simp)
          rw [Nat.add_zero, this]
          exact List.get?_concat_length groups G
        rw [h0]
        simp [hG, Nat.add_zero]
      | j' + 1 =>
        have := hkeys j' (by omega)
        rw [show (groups ++ [G]).length + j' = groups.length + (j' + 1) from by
          simp; omega] at this
        rw [this]
        have : idx + 1 + j' = idx + (j' + 1) := by omega
        rw [this]

/-- Inversion of the `MOGI` branch of the chunk loop. -/
theorem wmoStep_mogi {name : List Char} {s : WmoState} {ck : Chunk}
    {s' : WmoState} (ht : ck.token = tokMOGI)
    (h : wmoStep name s ck = .ok s') :
    ∃ groups cur,
      mogiLoop name s.group_names_table (ck.data.length / 32) 0
        (Cursor.fresh ck.data) s.obj.groups = .ok (groups, cur) ∧
      s' = { s with obj := { s.obj with groups := groups } } := by
  unfold wmoStep at h
  rw [ht] at h
  rw [if_neg (by decide), if_neg (by decide), if_neg (by decide),
    if_neg (by decide), if_neg (by decide), if_pos rfl] at h
  obtain ⟨p, hp, h2⟩ := Res.bind_eq_ok h
  obtain ⟨groups, cur⟩ := p
  simp only [Res.pure_eq, Res.ok.injEq] at h2
  exact ⟨groups, cur, hp, h2.symm⟩

/-- With no `MOGI` chunk left in the stream, the fold preserves the group
list. -/
theorem wmoFold_groups_of_count_zero (name : List Char) :
    ∀ (fuel : Nat) (c : Cursor) (s : WmoState) (h : c.remaining < fuel)
      (s' : WmoState),
    chunkFold (wmoStep name) fuel c s h = .ok s' →
    countChunks tokMOGI fuel c = 0 →
    s'.obj.groups = s.obj.groups := by
  intro fuel
  induction fuel with
  | zero => intro c s h; exact absurd h (Nat.not_lt_zero _)
  | succ k ih =>
    intro c s h s' hfold hcount
    simp only [chunkFold] at hfold
    simp only [countChunks] at hcount
    split at hfold
    · simp at hfold
    · simp at hfold
    · rename_i hp
      cases hfold
      rfl
    · rename_i ck c' hp
      simp only [hp] at hcount
      have hne : ck.token ≠ tokMOGI := by
        intro hmogi
        rw [if_pos hmogi] at hcount
        omega
      rw [if_neg hne] at hcount
      split at hfold
      · simp at hfold
      · simp at hfold
      · rename_i s1 hs1
        rw [ih c' s1 _ s' hfold (by omega)]
        exact (wmoStep_parts hs1).2 hne

/-- Main induction for C9: starting from an empty group list, a fold over a
stream with at most one `MOGI` chunk yields groups whose `k`-th companion
key is the zero-padded `_kkk` form. -/
theorem wmoFold_group_keys (name : List Char) (d f e : List UInt8)
    (hsplit : split_resource_name name = some (d, f, e)) :
    ∀ (fuel : Nat) (c : Cursor) (s : WmoState) (h : c.remaining < fuel)
      (s' : WmoState),
    chunkFold (wmoStep name) fuel c s h = .ok s' →
    countChunks tokMOGI fuel c ≤ 1 →
    s.obj.groups = [] →
    ∀ k, k < s'.obj.groups.length →
      (s'.obj.groups.get? k).map (fun g => g.resource_key) =
        some (d ++ f ++ [95] ++ pad3 k ++ strBytes ".wmo") := by
  intro fuel
  induction fuel with
  | zero => intro c s h; exact absurd h (Nat.not_lt_zero _)
  | succ n ih =>
    intro c s h s' hfold hcount hempty k hk
    simp only [chunkFold] at hfold
    simp only [countChunks] at hcount
    split at hfold
    · simp at hfold
    · simp at hfold
    · rename_i hp
      cases hfold
      rw [hempty] at hk
      exact absurd hk (by simp)
    · rename_i ck c' hp
      simp only [hp] at hcount
      split at hfold
      · simp at hfold
      · simp at hfold
      · rename_i s1 hs1
        by_cases hmogi : ck.token = tokMOGI
        · rw [if_pos hmogi] at hcount
          obtain ⟨groups, cur, hloop, hs1eq⟩ := wmoStep_mogi hmogi hs1
          rw [hempty] at hloop
          obtain ⟨hlen, -, hkeys⟩ :=
            mogiLoop_keys name s.group_names_table d f e hsplit
              _ _ _ _ _ _ hloop
          have hs'g : s'.obj.groups = groups := by
            have := wmoFold_groups_of_count_zero name n c' s1 _ s' hfold
              (by omega)
            rw [this, hs1eq]
          rw [hs'g] at hk ⊢
          have := hkeys k (by simp at hlen; omega)
          simpa using this
        · rw [if_neg hmogi] at hcount
          have hs1g : s1.obj.groups = [] := by
            rw [(wmoStep_parts hs1).2 hmogi]
            exact hempty
          exact ih c' s1 _ s' hfold (by omega) hs1g k hk

/-- C9: for every world-model root whose group-info chunk is decoded (at
most one `MOGI` chunk in the stream) and whose name splits without
panicking into `(dir, stem, ext)`, the group at index `k` gets companion
key `dir ++ stem ++ "_" ++ k` zero-padded to 3 digits `++ ".wmo"` (the
group extension is the hard-coded `".wmo"`). -/
theorem c9_group_key_zero_padded (name : List Char) (bytes : List UInt8)
    (d f e : List UInt8) (k : Nat)
    (hsplit : split_resource_name name = some (d, f, e))
    (hcount : wmoMogiCount bytes ≤ 1)
    (hk : wmoGroupKey (wmoLoad name bytes) k ≠ none) :
    wmoGroupKey (wmoLoad name bytes) k =
      some (d ++ f ++ [95] ++ pad3 k ++ strBytes ".wmo") := by
  unfold wmoLoad at hk ⊢
  cases hf : chunkFold (wmoStep name) ((Cursor.fresh bytes).remaining + 1)
      (Cursor.fresh bytes) wmoInit (Nat.lt_succ_self _) with
  | err e2 => rw [hf] at hk; simp [wmoGroupKey] at hk
  | crash => rw [hf] at hk; simp [wmoGroupKey] at hk
  | ok st =>
    simp only [hf, Res.bind_ok, Res.pure_eq, wmoGroupKey] at hk ⊢
    have hklt : k < st.obj.groups.length := by
      by_contra hge
      rw [List.get?_eq_none.mpr (by omega)] at hk
      simp at hk
    exact wmoFold_group_keys name d f e hsplit _ _ _ _ _ hf hcount rfl k hklt

/-- The root name for the C9 witness. -/
def c9Name : List Char := "Stormwind.wmo".toList

/-- A root with an `MVER` chunk and one `MOGI` chunk of four zeroed
records. -/
def c9Bytes : List UInt8 :=
  encodeChunk (strBytes "MVER") (le32 17) ++
  encodeChunk (strBytes "MOGI") (List.replicate 128 0)

/-- Witness for C9: root `"Stormwind.wmo"`, group index 3 yields
`"Stormwind_003.wmo"`. -/
theorem c9_group_key_zero_padded_witness :
    wmoGroupKey (wmoLoad c9Name c9Bytes) 3 = some (strBytes "Stormwind_003.wmo") := by
  have h := c9_group_key_zero_padded c9Name c9Bytes
    [] (strBytes "Stormwind") (strBytes ".wmo") 3
    (by rfl) (by decide) (by decide)
  rw [h]
  rfl

/-! ## adt.rs (terrain-tile decoder) -/

/-- `const MAP_CHUNK_COUNT: usize = 16 * 16;` -/
def MAP_CHUNK_COUNT : Nat := 16 * 16

/-- `const MAP_CHUNK_VERTICES: usize = 9 * 9 + 8 * 8;` -/
def MAP_CHUNK_VERTICES : Nat := 9 * 9 + 8 * 8

/-- `enum Holes { LowRes(u16), HighRes(u64) }` -/
inductive Holes where
  | lowRes : Nat → Holes
  | highRes : Nat → Holes
deriving DecidableEq, Repr

/-- `struct TextureLayer`.  `flags` holds the
`TextureLayerFlags::from_bits_truncate` result: the raw `u32` masked to the
declared bits `0..=12` (`0x1FFF`); `USE_ALPHA_MAP` is bit 8 and
`ALPHA_MAP_COMPRESSED` is bit 9. -/
structure TextureLayer where
  texture_id : Nat
  flags : Nat
  ground_effect_id : Nat
  alpha_map : Option AlphaMap
deriving DecidableEq, Repr

/-- `struct MapChunk`.  Floating-point fields keep their raw little-endian
bit patterns (`position`, `heights`); `normals` keeps the raw `i8` triples
read from MCNR (the `/ ±127` scaling and renormalisation are pure
per-component arithmetic on the bytes and play no role in any claim). -/
structure MapChunk where
  index_x : Nat
  index_y : Nat
  position : Nat × Nat × Nat
  heights : List Nat
  normals : List (UInt8 × UInt8 × UInt8)
  holes : Holes
  texture_layers : List TextureLayer
deriving DecidableEq, Repr

/-- `struct MapTile`; resource-name strings kept as their UTF-8 bytes. -/
structure MapTile where
  textures : List (List UInt8)
  m2 : List (List UInt8)
  wmo : List (List UInt8)
  chunks : List MapChunk
deriving DecidableEq, Repr

/-- The element of `vec![MapChunk { .. }; MAP_CHUNK_COUNT]` built at the top
of `MapTile::load`: zero indices, origin position, empty vectors, low-res
holes 0. -/
def defaultMapChunk : MapChunk := ⟨0, 0, (0, 0, 0), [], [], .lowRes 0, []⟩

def tokMTEX : List UInt8 := strBytes "MTEX"
def tokMMDX : List UInt8 := strBytes "MMDX"
def tokMMID : List UInt8 := strBytes "MMID"
def tokMWMO : List UInt8 := strBytes "MWMO"
def tokMWID : List UInt8 := strBytes "MWID"
def tokMDDF : List UInt8 := strBytes "MDDF"
def tokMODF : List UInt8 := strBytes "MODF"
def tokMCNK : List UInt8 := strBytes "MCNK"
def tokMCVT : List UInt8 := strBytes "MCVT"
def tokMCNR : List UInt8 := strBytes "MCNR"
def tokMCLY : List UInt8 := strBytes "MCLY"
def tokMCAL : List UInt8 := strBytes "MCAL"

/-- The MCVT loop: `MAP_CHUNK_VERTICES` little-endian `read_f32` calls, each
consuming 4 bytes, pushed onto `map_chunk.heights` in order (values kept as
raw bit patterns). -/
def readF32s : (count : Nat) → Cursor → (acc : List Nat) → Res (List Nat × Cursor)
  | 0, c, acc => .ok (acc, c)
  | k + 1, c, acc => do
    let (z, c1) ← c.readU32
    readF32s k c1 (acc ++ [z])

/-- The MCNR loop: `MAP_CHUNK_VERTICES` triples of `read_i8`, pushed onto
`map_chunk.normals` in order (raw bytes kept; the `/ ±127` scaling and
`normalize()` are total). -/
def readNormals : (count : Nat) → Cursor → (acc : List (UInt8 × UInt8 × UInt8)) →
    Res (List (UInt8 × UInt8 × UInt8) × Cursor)
  | 0, c, acc => .ok (acc, c)
  | k + 1, c, acc => do
    let (x, c1) ← c.readU8
    let (y, c2) ← c1.readU8
    let (z, c3) ← c2.readU8
    readNormals k c3 (acc ++ [(x, y, z)])

/-- `read_mcnk_header`: the fixed 128-byte register block.
`flags` is `MapChunkFlags::from_bits_truncate`, i.e. the raw `u32` masked to
the declared bits `0..=7`, `15` and `16` (`0x180FF`); `USE_HIGH_RES_HOLES`
is bit 16 and selects `Holes::HighRes(holes_high_res)` over
`Holes::LowRes(holes_low_res)`.  Only `index_x`, `index_y`, `position` and
`holes` are stored back into the chunk. -/
def read_mcnk_header (map_chunk : MapChunk) (c : Cursor) : Res (MapChunk × Cursor) := do
  let (flags_raw, c) ← c.readU32
  let (index_x, c) ← c.readU32
  let (index_y, c) ← c.readU32
  let (_num_layers, c) ← c.readU32
  let (_num_doodad_refs, c) ← c.readU32
  let (holes_high_res, c) ← c.readU64
  let (_offset_layer, c) ← c.readU32
  let (_offset_refs, c) ← c.readU32
  let (_offset_alpha, c) ← c.readU32
  let (_size_alpha, c) ← c.readU32
  let (_offset_shadow, c) ← c.readU32
  let (_size_shadow, c) ← c.readU32
  let (_area_id, c) ← c.readU32
  let (_num_mapobj_refs, c) ← c.readU32
  let (holes_low_res, c) ← c.readU16
  let (_unknown1, c) ← c.readU16
  let (_texmap1, c) ← c.readU64
  let (_texmap2, c) ← c.readU64
  let (_no_effect_doodad, c) ← c.readU64
  let (_offset_sound_emitters, c) ← c.readU32
  let (_num_sound_emitters, c) ← c.readU32
  let (_offset_liquid, c) ← c.readU32
  let (_size_liquid, c) ← c.readU32
  let (pos_x, c) ← c.readU32
  let (pos_y, c) ← c.readU32
  let (pos_z, c) ← c.readU32
  let (_offset_mccv, c) ← c.readU32
  let (_offset_mclv, c) ← c.readU32
  let (_unknown2, c) ← c.readU32
  pure ({ map_chunk with
    index_x := index_x,
    index_y := index_y,
    position := (pos_x, pos_y, pos_z),
    holes := if (flags_raw &&& 0x180FF).testBit 16 then
        Holes.highRes holes_high_res
      else
        Holes.lowRes holes_low_res }, c)

/-- The MCLY loop: `subchunk.data.len() / 16` records of
(texture_id, flags, mcal_offset, ground_effect_id); each pushes a layer with
`alpha_map: None` onto `texture_layers` and its `mcal_offset` onto the
side list `mcal_offsets`. -/
def mclyLoop : (count : Nat) → Cursor → (layers : List TextureLayer) →
    (mcal_offsets : List Nat) → Res (List TextureLayer × List Nat × Cursor)
  | 0, c, layers, mcal_offsets => .ok (layers, mcal_offsets, c)
  | k + 1, c, layers, mcal_offsets => do
    let (texture_id, c) ← c.readU32
    let (flags_raw, c) ← c.readU32
    let (mcal_offset, c) ← c.readU32
    let (ground_effect_id, c) ← c.readU32
    mclyLoop k c
      (layers ++ [⟨texture_id, flags_raw &&& 0x1FFF, ground_effect_id, none⟩])
      (mcal_offsets ++ [mcal_offset])

/-- The MCAL loop over `mcal_offsets.iter().enumerate()`:
`&mut map_chunk.texture_layers[index]` panics (`Res.crash`) when `index` is
out of bounds; a layer without `USE_ALPHA_MAP` is skipped; otherwise the
subcursor seeks to the recorded offset and the layer's alpha map is decoded
compressed (bit 9), raw with the caller's `big_alpha` hint, or — with no
hint — skipped with a warning (`warns` records the layer index) and
`alpha_map = None`. -/
def readMcalLoop (big_alpha : Option Bool) :
    (mcal_offsets : List Nat) → (index : Nat) → (layers : List TextureLayer) →
    (subcursor : Cursor) → (warns : List Nat) → Res (List TextureLayer × List Nat)
  | [], _, layers, _, warns => .ok (layers, warns)
  | start :: offs, index, layers, subcursor, warns =>
    match layers.get? index with
    | none => .crash
    | some layer =>
      if ¬ layer.flags.testBit 8 then
        readMcalLoop big_alpha offs (index + 1) layers subcursor warns
      else
        let sub2 := subcursor.seekTo start
        if layer.flags.testBit 9 then
          match AlphaMap.read_compressed sub2 with
          | .err e => .err e
          | .crash => .crash
          | .ok (am, sub3) =>
            readMcalLoop big_alpha offs (index + 1)
              (layers.set index { layer with alpha_map := some am }) sub3 warns
        else
          match big_alpha with
          | some is_u8 =>
            match AlphaMap.read_raw sub2 (!is_u8) with
            | .err e => .err e
            | .crash => .crash
            | .ok (am, sub3) =>
              readMcalLoop big_alpha offs (index + 1)
                (layers.set index { layer with alpha_map := some am }) sub3 warns
          | none =>
            readMcalLoop big_alpha offs (index + 1)
              (layers.set index { layer with alpha_map := none }) sub2
              (warns ++ [index])

/-- One iteration of the subchunk loop of `read_mcnk_subchunks`; the folded
state is the chunk under construction paired with the `mcal_offsets` list. -/
def mcnkStep (big_alpha : Option Bool) (s : MapChunk × List Nat) (ck : Chunk) :
    Res (MapChunk × List Nat) :=
  if ck.token = tokMCVT then do
    let (hs, _) ← readF32s MAP_CHUNK_VERTICES (Cursor.fresh ck.data) []
    .ok ({ s.1 with heights := s.1.heights ++ hs }, s.2)
  else if ck.token = tokMCNR then do
    let (ns, _) ← readNormals MAP_CHUNK_VERTICES (Cursor.fresh ck.data) []
    .ok ({ s.1 with normals := s.1.normals ++ ns }, s.2)
  else if ck.token = tokMCLY then do
    let (layers, offs, _) ←
      mclyLoop (ck.data.length / 16) (Cursor.fresh ck.data) s.1.texture_layers s.2
    .ok ({ s.1 with texture_layers := layers }, offs)
  else if ck.token = tokMCAL then do
    let (layers, _warns) ←
      readMcalLoop big_alpha s.2 0 s.1.texture_layers (Cursor.fresh ck.data) []
    .ok ({ s.1 with texture_layers := layers }, s.2)
  else .ok s

/-- `read_mcnk_subchunks`: fold the MCVT/MCNR/MCLY/MCAL handlers over the
subchunk stream, starting from an empty `mcal_offsets` list. -/
def read_mcnk_subchunks (map_chunk : MapChunk) (cursor : Cursor)
    (big_alpha : Option Bool) : Res MapChunk := do
  let s ← chunkFold (mcnkStep big_alpha) (cursor.remaining + 1) cursor
    (map_chunk, []) (Nat.lt_succ_self _)
  pure s.1

/-- The loop of `read_ids_chunk`: `chunk.data.len() / 4` offsets; a
resolvable offset moves the name from the table into `into` (preserving
stream order), an unresolvable one only logs a warning. -/
def idsLoop : (count : Nat) → Cursor → (tbl : List (Nat × List UInt8)) →
    (into : List (List UInt8)) → Res (List (Nat × List UInt8) × List (List UInt8))
  | 0, _, tbl, into => .ok (tbl, into)
  | k + 1, c, tbl, into => do
    let (offset, c1) ← c.readU32
    match assocRemove tbl offset with
    | some (name, tbl1) => idsLoop k c1 tbl1 (into ++ [name])
    | none => idsLoop k c1 tbl into

/-- `read_ids_chunk`: run the offset loop, log the leftover names, then
`data.clear()` — the returned table is always empty. -/
def read_ids_chunk (data : List UInt8) (tbl : List (Nat × List UInt8))
    (into : List (List UInt8)) : Res (List (Nat × List UInt8) × List (List UInt8)) := do
  let (_leftover, into1) ← idsLoop (data.length / 4) (Cursor.fresh data) tbl into
  pure ([], into1)

/-- The MDDF/MODF placement loops: `chunk.data.len() / recSize` records of
`recSize` bytes, read field by field and dropped.  The per-record field
reads are modelled as a single `read_vec recSize`, which consumes the same
bytes and fails under exactly the same condition (fewer than `recSize`
bytes left). -/
def placementLoop : (count : Nat) → (recSize : Nat) → Cursor → Res Cursor
  | 0, _, c => .ok c
  | k + 1, recSize, c => do
    let (_, c1) ← c.readVec recSize
    placementLoop k recSize c1

/-- Per-file decoding state of `read_adt_file`: the tile under construction
plus the file-local name tables and MCNK index (all three restart at every
file). -/
structure AdtState where
  tile : MapTile
  m2_tmp : List (Nat × List UInt8)
  wmo_tmp : List (Nat × List UInt8)
  map_chunk_index : Nat
deriving DecidableEq, Repr

/-- One iteration of the chunk loop of `read_adt_file`.  In the MCNK branch
`&mut map_tile.chunks[map_chunk_index]` panics (`Res.crash`) when the index
reaches the grid size; the header block is read only in the root file. -/
def adtStep (is_rootfile : Bool) (big_alpha : Option Bool) (s : AdtState)
    (ck : Chunk) : Res AdtState :=
  if ck.token = tokMTEX then do
    let runs ← cstringRuns ck.data
    .ok { s with tile :=
      { s.tile with textures := s.tile.textures ++ runs.map (fun r => r.2) } }
  else if ck.token = tokMMDX then do
    let runs ← cstringRuns ck.data
    .ok { s with m2_tmp := runs.foldl (fun m r => assocInsert m r.1 r.2) s.m2_tmp }
  else if ck.token = tokMMID then do
    let (tbl, names) ← read_ids_chunk ck.data s.m2_tmp s.tile.m2
    .ok { s with m2_tmp := tbl, tile := { s.tile with m2 := names } }
  else if ck.token = tokMWMO then do
    let runs ← cstringRuns ck.data
    .ok { s with wmo_tmp := runs.foldl (fun m r => assocInsert m r.1 r.2) s.wmo_tmp }
  else if ck.token = tokMWID then do
    let (tbl, names) ← read_ids_chunk ck.data s.wmo_tmp s.tile.wmo
    .ok { s with wmo_tmp := tbl, tile := { s.tile with wmo := names } }
  else if ck.token = tokMDDF then do
    let _ ← placementLoop (ck.data.length / 36) 36 (Cursor.fresh ck.data)
    .ok s
  else if ck.token = tokMODF then do
    let _ ← placementLoop (ck.data.length / 64) 64 (Cursor.fresh ck.data)
    .ok s
  else if ck.token = tokMCNK then
    match s.tile.chunks.get? s.map_chunk_index with
    | none => .crash
    | some mc => do
      let (mc1, cur) ←
        if is_rootfile then read_mcnk_header mc (Cursor.fresh ck.data)
        else pure (mc, Cursor.fresh ck.data)
      let mc2 ← read_mcnk_subchunks mc1 cur big_alpha
      .ok { s with
        tile := { s.tile with chunks := s.tile.chunks.set s.map_chunk_index mc2 },
        map_chunk_index := s.map_chunk_index + 1 }
  else .ok s

/-- `read_adt_file`: fold the chunk handlers over one file with fresh
`m2_tmp` / `wmo_tmp` tables and a fresh `map_chunk_index = 0`. -/
def read_adt_file (map_tile : MapTile) (input : List UInt8)
    (is_rootfile : Bool) (big_alpha : Option Bool) : Res MapTile := do
  let s ← chunkFold (adtStep is_rootfile big_alpha)
    ((Cursor.fresh input).remaining + 1) (Cursor.fresh input)
    ⟨map_tile, [], [], 0⟩ (Nat.lt_add_one _)
  pure s.tile

/-- The resource inputs of `MapTile::load`: the root file's bytes plus the
optional cata+ split files (`..._tex0.adt`, `..._obj0.adt`), present exactly
when `reader.exists` finds them.  The split file names are derived from the
root name and do not influence parsing. -/
structure AdtSources where
  root : List UInt8
  tex0 : Option (List UInt8)
  obj0 : Option (List UInt8)
deriving DecidableEq, Repr

/-- One optional iteration of the `targets` loop in `MapTile::load`: a
present split file gets a non-root `read_adt_file` pass, an absent one is
simply not in `targets`. -/
def read_adt_split (tile : MapTile) (o : Option (List UInt8))
    (big_alpha : Option Bool) : Res MapTile :=
  match o with
  | some bytes => read_adt_file tile bytes false big_alpha
  | none => pure tile

/-- `MapTile::load`: start from an empty tile whose chunk grid is
`MAP_CHUNK_COUNT` copies of the default chunk, then run `read_adt_file` over
the root file (with the header pass) and each present split file (without). -/
def MapTile.load (src : AdtSources) (big_alpha : Option Bool) : Res MapTile := do
  let tile0 : MapTile := ⟨[], [], [], List.replicate MAP_CHUNK_COUNT defaultMapChunk⟩
  let tile1 ← read_adt_file tile0 src.root true big_alpha
  let tile2 ← read_adt_split tile1 src.tex0 big_alpha
  let tile3 ← read_adt_split tile2 src.obj0 big_alpha
  pure tile3

/-- Number of MCNK records in the parseable prefix of one file. -/
def adtMcnkCount (bytes : List UInt8) : Nat :=
  countChunks tokMCNK ((Cursor.fresh bytes).remaining + 1) (Cursor.fresh bytes)

/-! ## Crash-freedom infrastructure -/

theorem Res.bind_eq_crash {α β : Type} {m : Res α} {f : α → Res β}
    (h : (m >>= f) = .crash) : m = .crash ∨ ∃ a, m = .ok a ∧ f a = .crash := by
  cases m with
  | ok a => exact Or.inr ⟨a, rfl, h⟩
  | err e => simp at h
  | crash => exact Or.inl rfl

theorem Res.bind_no_crash {α β : Type} {m : Res α} {f : α → Res β}
    (hm : m ≠ .crash) (hf : ∀ a, f a ≠ .crash) : (m >>= f) ≠ .crash := by
  cases m with
  | ok a => exact hf a
  | err e => simp
  | crash => exact absurd rfl hm

theorem Res.bind_no_crash_of {α β : Type} {m : Res α} {f : α → Res β}
    (hm : m ≠ .crash) (hf : ∀ a, m = .ok a → f a ≠ .crash) :
    (m >>= f) ≠ .crash := by
  cases m with
  | ok a => exact hf a rfl
  | err e => simp
  | crash => exact absurd rfl hm

theorem Cursor.readU8_no_crash (c : Cursor) : c.readU8 ≠ .crash := by
  unfold Cursor.readU8
  split <;> simp

theorem Cursor.readU16_no_crash (c : Cursor) : c.readU16 ≠ .crash := by
  unfold Cursor.readU16
  exact Res.bind_no_crash (Cursor.readVec_no_crash c 2) (fun p => by simp)

theorem Cursor.readU64_no_crash (c : Cursor) : c.readU64 ≠ .crash := by
  unfold Cursor.readU64
  exact Res.bind_no_crash (Cursor.readVec_no_crash c 8) (fun p => by simp)

theorem readCompressedLoop_no_crash :
    ∀ (fuel : Nat) (c : Cursor) (data : List UInt8) (h : c.remaining < fuel),
    AlphaMap.readCompressedLoop fuel c data h ≠ .crash := by
  intro fuel
  induction fuel with
  | zero => intro c data h; exact absurd h (Nat.not_lt_zero _)
  | succ k ih =>
    intro c data h hcr
    simp only [AlphaMap.readCompressedLoop] at hcr
    split at hcr
    · split at hcr
      · simp at hcr
      · rename_i heq
        exact Cursor.readU8_no_crash c heq
      · split at hcr
        · split at hcr
          · simp at hcr
          · rename_i heq
            exact Cursor.readU8_no_crash _ heq
          · exact ih _ _ _ hcr
        · exact ih _ _ _ hcr
    · simp at hcr

theorem read_compressed_no_crash (c : Cursor) :
    AlphaMap.read_compressed c ≠ .crash := by
  unfold AlphaMap.read_compressed
  refine Res.bind_no_crash (readCompressedLoop_no_crash _ _ _ _) (fun p => ?_)
  obtain ⟨data, c1⟩ := p
  split <;> split <;> simp

theorem read_raw_no_crash (c : Cursor) (is_u4 : Bool) :
    AlphaMap.read_raw c is_u4 ≠ .crash := by
  unfold AlphaMap.read_raw
  exact Res.bind_no_crash (Cursor.readVec_no_crash _ _) (fun p => by simp)

theorem readF32s_no_crash :
    ∀ (count : Nat) (c : Cursor) (acc : List Nat),
    readF32s count c acc ≠ .crash := by
  intro count
  induction count with
  | zero => intro c acc; simp [readF32s]
  | succ k ih =>
    intro c acc
    unfold readF32s
    refine Res.bind_no_crash (Cursor.readU32_no_crash c) (fun p => ?_)
    obtain ⟨z, c1⟩ := p
    exact ih c1 _

theorem readNormals_no_crash :
    ∀ (count : Nat) (c : Cursor) (acc : List (UInt8 × UInt8 × UInt8)),
    readNormals count c acc ≠ .crash := by
  intro count
  induction count with
  | zero => intro c acc; simp [readNormals]
  | succ k ih =>
    intro c acc
    unfold readNormals
    refine Res.bind_no_crash (Cursor.readU8_no_crash c) (fun p => ?_)
    obtain ⟨x, c1⟩ := p
    refine Res.bind_no_crash (Cursor.readU8_no_crash c1) (fun p => ?_)
    obtain ⟨y, c2⟩ := p
    refine Res.bind_no_crash (Cursor.readU8_no_crash c2) (fun p => ?_)
    obtain ⟨z, c3⟩ := p
    exact ih c3 _

theorem cstringLoop_no_crash :
    ∀ (bytes : List UInt8) (index : Nat) (buffer : List UInt8) (string_id : Nat),
    cstringLoop bytes index buffer string_id ≠ .crash := by
  intro bytes
  induction bytes with
  | nil =>
    intro i buf sid
    simp only [cstringLoop]
    split
    · simp
    · split <;> simp
  | cons b rest ih =>
    intro i buf sid
    simp only [cstringLoop]
    split
    · exact ih _ _ _
    · split
      · exact ih _ _ _
      · split
        · exact Res.bind_no_crash (ih _ _ _) (fun l => by simp)
        · simp

theorem cstringRuns_no_crash (bytes : List UInt8) : cstringRuns bytes ≠ .crash :=
  cstringLoop_no_crash bytes 0 [] 0

theorem idsLoop_no_crash :
    ∀ (count : Nat) (c : Cursor) (tbl : List (Nat × List UInt8))
    (into : List (List UInt8)), idsLoop count c tbl into ≠ .crash := by
  intro count
  induction count with
  | zero => intro c tbl into; simp [idsLoop]
  | succ k ih =>
    intro c tbl into
    unfold idsLoop
    refine Res.bind_no_crash (Cursor.readU32_no_crash c) (fun p => ?_)
    obtain ⟨off, c1⟩ := p
    rcases hr : assocRemove tbl off with - | ⟨name, tbl1⟩ <;> simp only [hr]
    · exact ih _ _ _
    · exact ih _ _ _

theorem read_ids_chunk_no_crash (data : List UInt8) (tbl : List (Nat × List UInt8))
    (into : List (List UInt8)) : read_ids_chunk data tbl into ≠ .crash := by
  unfold read_ids_chunk
  exact Res.bind_no_crash (idsLoop_no_crash _ _ _ _) (fun p => by simp)

theorem placementLoop_no_crash :
    ∀ (count recSize : Nat) (c : Cursor), placementLoop count recSize c ≠ .crash := by
  intro count
  induction count with
  | zero => intro recSize c; simp [placementLoop]
  | succ k ih =>
    intro recSize c
    unfold placementLoop
    refine Res.bind_no_crash (Cursor.readVec_no_crash c recSize) (fun p => ?_)
    obtain ⟨bs, c1⟩ := p
    exact ih _ _

theorem read_mcnk_header_no_crash (map_chunk : MapChunk) (c : Cursor) :
    read_mcnk_header map_chunk c ≠ .crash := by
  unfold read_mcnk_header
  repeat
    refine Res.bind_no_crash
      (by first
        | exact Cursor.readU32_no_crash _
        | exact Cursor.readU16_no_crash _
        | exact Cursor.readU64_no_crash _)
      (fun p => ?_)
    obtain ⟨v, c2⟩ := p
  simp

/-! ## Positional list lemmas (kept self-contained) -/

theorem listGet_lt {α : Type} :
    ∀ (l : List α) (i : Nat), i < l.length → ∃ a, l.get? i = some a
  | [], i, h => absurd h (by simp)
  | b :: t, 0, _ => ⟨b, rfl⟩
  | b :: t, i + 1, h => listGet_lt t i (by simpa using h)

theorem listGetSet_eq {α : Type} :
    ∀ (l : List α) (i : Nat) (a : α), i < l.length → (l.set i a).get? i = some a
  | [], i, a, h => absurd h (by simp)
  | b :: t, 0, a, _ => rfl
  | b :: t, i + 1, a, h => listGetSet_eq t i a (by simpa using h)

theorem listGetSet_ne {α : Type} :
    ∀ (l : List α) (i j : Nat) (a : α), i ≠ j → (l.set i a).get? j = l.get? j
  | [], _, _, _, _ => rfl
  | b :: t, 0, 0, a, h => absurd rfl h
  | b :: t, 0, j + 1, a, _ => rfl
  | b :: t, i + 1, 0, a, _ => rfl
  | b :: t, i + 1, j + 1, a, h =>
    listGetSet_ne t i j a (fun hc => h (by rw [hc]))

theorem listGetReplicate {α : Type} :
    ∀ (n i : Nat) (a : α), i < n → (List.replicate n a).get? i = some a
  | 0, i, a, h => absurd h (Nat.not_lt_zero _)
  | n + 1, 0, a, _ => rfl
  | n + 1, i + 1, a, h => listGetReplicate n i a (Nat.lt_of_succ_lt_succ h)

/-- The MCLY loop never panics, and on success it appends exactly `count`
entries to both the layer list and the offset list. -/
theorem mclyLoop_facts :
    ∀ (count : Nat) (c : Cursor) (layers : List TextureLayer) (offs : List Nat),
    mclyLoop count c layers offs ≠ .crash ∧
    ∀ layers' offs' c', mclyLoop count c layers offs = .ok (layers', offs', c') →
      layers'.length = layers.length + count ∧ offs'.length = offs.length + count := by
  intro count
  induction count with
  | zero =>
    intro c layers offs
    constructor
    · simp [mclyLoop]
    · intro l' o' c' h
      simp only [mclyLoop, Res.ok.injEq, Prod.mk.injEq] at h
      obtain ⟨h1, h2, -⟩ := h
      subst h1; subst h2
      simp
  | succ k ih =>
    intro c layers offs
    constructor
    · unfold mclyLoop
      refine Res.bind_no_crash (Cursor.readU32_no_crash c) (fun p => ?_)
      obtain ⟨v1, c1⟩ := p
      refine Res.bind_no_crash (Cursor.readU32_no_crash c1) (fun p => ?_)
      obtain ⟨v2, c2⟩ := p
      refine Res.bind_no_crash (Cursor.readU32_no_crash c2) (fun p => ?_)
      obtain ⟨v3, c3⟩ := p
      refine Res.bind_no_crash (Cursor.readU32_no_crash c3) (fun p => ?_)
      obtain ⟨v4, c4⟩ := p
      exact (ih c4 _ _).1
    · intro l' o' c' h
      unfold mclyLoop at h
      obtain ⟨⟨v1, c1⟩, -, h⟩ := Res.bind_eq_ok h
      obtain ⟨⟨v2, c2⟩, -, h⟩ := Res.bind_eq_ok h
      obtain ⟨⟨v3, c3⟩, -, h⟩ := Res.bind_eq_ok h
      obtain ⟨⟨v4, c4⟩, -, h⟩ := Res.bind_eq_ok h
      have := (ih c4 _ _).2 l' o' c' h
      simp at this
      omega

/-- The MCAL loop never panics when it examines only existing layers, and it
preserves the layer-list length. -/
theorem readMcalLoop_facts (big_alpha : Option Bool) :
    ∀ (offs : List Nat) (index : Nat) (layers : List TextureLayer)
    (subcursor : Cursor) (warns : List Nat),
    index + offs.length ≤ layers.length →
    readMcalLoop big_alpha offs index layers subcursor warns ≠ .crash ∧
    ∀ layers' warns',
      readMcalLoop big_alpha offs index layers subcursor warns = .ok (layers', warns') →
      layers'.length = layers.length := by
  intro offs
  induction offs with
  | nil =>
    intro index layers sub warns hle
    constructor
    · simp [readMcalLoop]
    · intro l' w' h
      simp only [readMcalLoop, Res.ok.injEq, Prod.mk.injEq] at h
      rw [← h.1]
  | cons start offs ih =>
    intro index layers sub warns hle
    have hidx : index < layers.length := by
      simp only [List.length_cons] at hle; omega
    obtain ⟨layer, hg⟩ := listGet_lt layers index hidx
    constructor
    · intro hcr
      simp only [readMcalLoop, hg] at hcr
      split at hcr
      · exact (ih (index + 1) layers sub warns (by simp at hle ⊢; omega)).1 hcr
      · split at hcr
        · split at hcr
          · simp at hcr
          · rename_i heq
            exact read_compressed_no_crash _ heq
          · refine (ih (index + 1) _ _ warns ?_).1 hcr
            simp only [List.length_set]
            simp at hle; omega
        · split at hcr
          · split at hcr
            · simp at hcr
            · rename_i heq
              exact read_raw_no_crash _ _ heq
            · refine (ih (index + 1) _ _ warns ?_).1 hcr
              simp only [List.length_set]
              simp at hle; omega
          · refine (ih (index + 1) _ _ _ ?_).1 hcr
            simp only [List.length_set]
            simp at hle; omega
    · intro l' w' h
      simp only [readMcalLoop, hg] at h
      split at h
      · exact (ih (index + 1) layers sub warns (by simp at hle ⊢; omega)).2 l' w' h
      · split at h
        · split at h
          · simp at h
          · simp at h
          · have := (ih (index + 1) _ _ warns (by
              simp only [List.length_set]; simp at hle; omega)).2 l' w' h
            simpa [List.length_set] using this
        · split at h
          · split at h
            · simp at h
            · simp at h
            · have := (ih (index + 1) _ _ warns (by
                simp only [List.length_set]; simp at hle; omega)).2 l' w' h
              simpa [List.length_set] using this
          · have := (ih (index + 1) _ _ _ (by
              simp only [List.length_set]; simp at hle; omega)).2 l' w' h
            simpa [List.length_set] using this

/-- Each subchunk handler preserves `mcal_offsets.length ≤ texture_layers.length`
and cannot panic under that invariant (MCLY extends both lists together; MCAL
indexes only layers below the offset count). -/
theorem mcnkStep_inv (big_alpha : Option Bool) (s : MapChunk × List Nat) (ck : Chunk)
    (hP : s.2.length ≤ s.1.texture_layers.length) :
    mcnkStep big_alpha s ck ≠ .crash ∧
    ∀ s', mcnkStep big_alpha s ck = .ok s' → s'.2.length ≤ s'.1.texture_layers.length := by
  unfold mcnkStep
  by_cases h1 : ck.token = tokMCVT
  · rw [if_pos h1]
    constructor
    · refine Res.bind_no_crash (readF32s_no_crash _ _ _) (fun p => ?_)
      obtain ⟨hs, c⟩ := p
      simp
    · intro s' h
      obtain ⟨⟨hs, c⟩, -, h⟩ := Res.bind_eq_ok h
      cases h
      simpa using hP
  · rw [if_neg h1]
    by_cases h2 : ck.token = tokMCNR
    · rw [if_pos h2]
      constructor
      · refine Res.bind_no_crash (readNormals_no_crash _ _ _) (fun p => ?_)
        obtain ⟨ns, c⟩ := p
        simp
      · intro s' h
        obtain ⟨⟨ns, c⟩, -, h⟩ := Res.bind_eq_ok h
        cases h
        simpa using hP
    · rw [if_neg h2]
      by_cases h3 : ck.token = tokMCLY
      · rw [if_pos h3]
        constructor
        · refine Res.bind_no_crash (mclyLoop_facts _ _ _ _).1 (fun p => ?_)
          obtain ⟨layers, offs, c⟩ := p
          simp
        · intro s' h
          obtain ⟨⟨layers, offs, c⟩, hrun, h⟩ := Res.bind_eq_ok h
          cases h
          have := (mclyLoop_facts (ck.data.length / 16) (Cursor.fresh ck.data)
            s.1.texture_layers s.2).2 layers offs c hrun
          simp only []
          omega
      · rw [if_neg h3]
        by_cases h4 : ck.token = tokMCAL
        · rw [if_pos h4]
          constructor
          · refine Res.bind_no_crash
              ((readMcalLoop_facts big_alpha s.2 0 s.1.texture_layers
                (Cursor.fresh ck.data) [] (by omega)).1) (fun p => ?_)
            obtain ⟨layers, warns⟩ := p
            simp
          · intro s' h
            obtain ⟨⟨layers, warns⟩, hrun, h⟩ := Res.bind_eq_ok h
            cases h
            have := (readMcalLoop_facts big_alpha s.2 0 s.1.texture_layers
              (Cursor.fresh ck.data) [] (by omega)).2 layers warns hrun
            simp only []
            omega
        · rw [if_neg h4]
          constructor
          · simp
          · intro s' h
            cases h
            exact hP

/-- `read_mcnk_subchunks` never panics: the invariant of `mcnkStep_inv` holds
at the initial state (empty offset list). -/
theorem read_mcnk_subchunks_no_crash (map_chunk : MapChunk) (cursor : Cursor)
    (big_alpha : Option Bool) :
    read_mcnk_subchunks map_chunk cursor big_alpha ≠ .crash := by
  unfold read_mcnk_subchunks
  refine Res.bind_no_crash ?_ (fun s => by simp)
  exact chunkFold_no_crash (mcnkStep big_alpha)
    (fun s => s.2.length ≤ s.1.texture_layers.length)
    (fun s ck hP => mcnkStep_inv big_alpha s ck hP)
    _ _ _ _ (by simp)

/-- Case analysis of one `read_adt_file` iteration: it panics only when an
MCNK record arrives with the chunk index already at the grid size; an MCNK
step bumps the index and rewrites exactly slot `map_chunk_index`; every
other step leaves the grid and the index alone. -/
theorem adtStep_facts (is_rootfile : Bool) (big_alpha : Option Bool)
    (s : AdtState) (ck : Chunk)
    (hidx : ck.token = tokMCNK → s.map_chunk_index < s.tile.chunks.length) :
    adtStep is_rootfile big_alpha s ck ≠ .crash ∧
    ∀ s', adtStep is_rootfile big_alpha s ck = .ok s' →
      (ck.token = tokMCNK →
        s'.tile.chunks.length = s.tile.chunks.length ∧
        s'.map_chunk_index = s.map_chunk_index + 1 ∧
        ∀ i, i ≠ s.map_chunk_index → s'.tile.chunks.get? i = s.tile.chunks.get? i) ∧
      (ck.token ≠ tokMCNK →
        s'.tile.chunks = s.tile.chunks ∧ s'.map_chunk_index = s.map_chunk_index) := by
  unfold adtStep
  by_cases h1 : ck.token = tokMTEX
  · rw [if_pos h1]
    refine ⟨Res.bind_no_crash (cstringRuns_no_crash _) (fun runs => by simp), ?_⟩
    intro s' h
    obtain ⟨runs, -, h⟩ := Res.bind_eq_ok h
    cases h
    exact ⟨fun hc => absurd (h1.symm.trans hc) (by decide), fun _ => ⟨rfl, rfl⟩⟩
  · rw [if_neg h1]
    by_cases h2 : ck.token = tokMMDX
    · rw [if_pos h2]
      refine ⟨Res.bind_no_crash (cstringRuns_no_crash _) (fun runs => by simp), ?_⟩
      intro s' h
      obtain ⟨runs, -, h⟩ := Res.bind_eq_ok h
      cases h
      exact ⟨fun hc => absurd (h2.symm.trans hc) (by decide), fun _ => ⟨rfl, rfl⟩⟩
    · rw [if_neg h2]
      by_cases h3 : ck.token = tokMMID
      · rw [if_pos h3]
        refine ⟨Res.bind_no_crash (read_ids_chunk_no_crash _ _ _) (fun p => by
          obtain ⟨tbl, names⟩ := p; simp), ?_⟩
        intro s' h
        obtain ⟨⟨tbl, names⟩, -, h⟩ := Res.bind_eq_ok h
        cases h
        exact ⟨fun hc => absurd (h3.symm.trans hc) (by decide), fun _ => ⟨rfl, rfl⟩⟩
      · rw [if_neg h3]
        by_cases h4 : ck.token = tokMWMO
        · rw [if_pos h4]
          refine ⟨Res.bind_no_crash (cstringRuns_no_crash _) (fun runs => by simp), ?_⟩
          intro s' h
          obtain ⟨runs, -, h⟩ := Res.bind_eq_ok h
          cases h
          exact ⟨fun hc => absurd (h4.symm.trans hc) (by decide), fun _ => ⟨rfl, rfl⟩⟩
        · rw [if_neg h4]
          by_cases h5 : ck.token = tokMWID
          · rw [if_pos h5]
            refine ⟨Res.bind_no_crash (read_ids_chunk_no_crash _ _ _) (fun p => by
              obtain ⟨tbl, names⟩ := p; simp), ?_⟩
            intro s' h
            obtain ⟨⟨tbl, names⟩, -, h⟩ := Res.bind_eq_ok h
            cases h
            exact ⟨fun hc => absurd (h5.symm.trans hc) (by decide), fun _ => ⟨rfl, rfl⟩⟩
          · rw [if_neg h5]
            by_cases h6 : ck.token = tokMDDF
            · rw [if_pos h6]
              refine ⟨Res.bind_no_crash (placementLoop_no_crash _ _ _)
                (fun c1 => by simp), ?_⟩
              intro s' h
              obtain ⟨c1, -, h⟩ := Res.bind_eq_ok h
              cases h
              exact ⟨fun hc => absurd (h6.symm.trans hc) (by decide),
                fun _ => ⟨rfl, rfl⟩⟩
            · rw [if_neg h6]
              by_cases h7 : ck.token = tokMODF
              · rw [if_pos h7]
                refine ⟨Res.bind_no_crash (placementLoop_no_crash _ _ _)
                  (fun c1 => by simp), ?_⟩
                intro s' h
                obtain ⟨c1, -, h⟩ := Res.bind_eq_ok h
                cases h
                exact ⟨fun hc => absurd (h7.symm.trans hc) (by decide),
                  fun _ => ⟨rfl, rfl⟩⟩
              · rw [if_neg h7]
                by_cases h8 : ck.token = tokMCNK
                · rw [if_pos h8]
                  obtain ⟨mc, hg⟩ := listGet_lt _ _ (hidx h8)
                  simp only [hg]
                  cases is_rootfile with
                  | true =>
                    rw [if_pos rfl]
                    constructor
                    · refine Res.bind_no_crash (read_mcnk_header_no_crash _ _)
                        (fun p => ?_)
                      obtain ⟨mc1, cur⟩ := p
                      exact Res.bind_no_crash
                        (read_mcnk_subchunks_no_crash _ _ _) (fun mc2 => by simp)
                    · intro s' h
                      obtain ⟨⟨mc1, cur⟩, -, h⟩ := Res.bind_eq_ok h
                      obtain ⟨mc2, -, h⟩ := Res.bind_eq_ok h
                      cases h
                      refine ⟨fun _ => ⟨by simp, by simp, ?_⟩,
                        fun hne => absurd h8 hne⟩
                      intro i hi
                      exact listGetSet_ne _ _ _ _ (fun hc => hi hc.symm)
                  | false =>
                    rw [if_neg Bool.false_ne_true]
                    constructor
                    · simp only [Res.pure_eq, Res.bind_ok]
                      exact Res.bind_no_crash
                        (read_mcnk_subchunks_no_crash _ _ _) (fun mc2 => by simp)
                    · intro s' h
                      simp only [Res.pure_eq, Res.bind_ok] at h
                      obtain ⟨mc2, -, h⟩ := Res.bind_eq_ok h
                      cases h
                      refine ⟨fun _ => ⟨by simp, by simp, ?_⟩,
                        fun hne => absurd h8 hne⟩
                      intro i hi
                      exact listGetSet_ne _ _ _ _ (fun hc => hi hc.symm)
                · rw [if_neg h8]
                  refine ⟨by simp, ?_⟩
                  intro s' h
                  cases h
                  exact ⟨fun hc => absurd hc h8, fun _ => ⟨rfl, rfl⟩⟩

/-- The `read_adt_file` chunk loop cannot panic while the chunk index plus
the number of MCNK records still ahead stays within the grid size. -/
theorem adtFold_no_crash (is_rootfile : Bool) (big_alpha : Option Bool) :
    ∀ (fuel : Nat) (c : Cursor) (s : AdtState) (h : c.remaining < fuel),
    s.map_chunk_index + countChunks tokMCNK fuel c ≤ s.tile.chunks.length →
    chunkFold (adtStep is_rootfile big_alpha) fuel c s h ≠ .crash := by
  intro fuel
  induction fuel with
  | zero => intro c s h; exact absurd h (Nat.not_lt_zero _)
  | succ k ih =>
    intro c s h hcnt hcr
    simp only [chunkFold] at hcr
    simp only [countChunks] at hcnt
    split at hcr
    · simp at hcr
    · rename_i hp
      exact parseChunkAt_no_crash c hp
    · simp at hcr
    · rename_i ck c' hp
      simp only [hp] at hcnt
      have hstep := adtStep_facts is_rootfile big_alpha s ck
        (fun hck => by rw [if_pos hck] at hcnt; omega)
      split at hcr
      · simp at hcr
      · rename_i hs
        exact hstep.1 hs
      · rename_i s1 hs
        have hparts := hstep.2 s1 hs
        by_cases hck : ck.token = tokMCNK
        · rw [if_pos hck] at hcnt
          obtain ⟨hlen1, hidx1, -⟩ := hparts.1 hck
          exact ih c' s1 _ (by rw [hidx1, hlen1]; omega) hcr
        · rw [if_neg hck] at hcnt
          obtain ⟨hchunks1, hidx1⟩ := hparts.2 hck
          exact ih c' s1 _ (by rw [hidx1, hchunks1]; omega) hcr

/-- On success the `read_adt_file` chunk loop keeps the grid length and
leaves every slot at or beyond `map_chunk_index + MCNK count` untouched. -/
theorem adtFold_ok_facts (is_rootfile : Bool) (big_alpha : Option Bool) :
    ∀ (fuel : Nat) (c : Cursor) (s : AdtState) (h : c.remaining < fuel)
      (s' : AdtState),
    chunkFold (adtStep is_rootfile big_alpha) fuel c s h = .ok s' →
    s.map_chunk_index + countChunks tokMCNK fuel c ≤ s.tile.chunks.length →
    s'.tile.chunks.length = s.tile.chunks.length ∧
    ∀ i, s.map_chunk_index + countChunks tokMCNK fuel c ≤ i →
      s'.tile.chunks.get? i = s.tile.chunks.get? i := by
  intro fuel
  induction fuel with
  | zero => intro c s h; exact absurd h (Nat.not_lt_zero _)
  | succ k ih =>
    intro c s h s' hfold hcnt
    simp only [chunkFold] at hfold
    simp only [countChunks] at hcnt ⊢
    split at hfold
    · simp at hfold
    · simp at hfold
    · rename_i hp
      cases hfold
      simp [hp]
    · rename_i ck c' hp
      simp only [hp] at hcnt ⊢
      have hstep := adtStep_facts is_rootfile big_alpha s ck
        (fun hck => by rw [if_pos hck] at hcnt; omega)
      split at hfold
      · simp at hfold
      · simp at hfold
      · rename_i s1 hs
        have hparts := hstep.2 s1 hs
        by_cases hck : ck.token = tokMCNK
        · rw [if_pos hck] at hcnt ⊢
          obtain ⟨hlen1, hidx1, hget1⟩ := hparts.1 hck
          obtain ⟨hlen2, hget2⟩ :=
            ih c' s1 _ s' hfold (by rw [hidx1, hlen1]; omega)
          constructor
          · rw [hlen2, hlen1]
          · intro i hi
            rw [hget2 i (by omega), hget1 i (by omega)]
        · rw [if_neg hck] at hcnt ⊢
          obtain ⟨hchunks1, hidx1⟩ := hparts.2 hck
          obtain ⟨hlen2, hget2⟩ :=
            ih c' s1 _ s' hfold (by rw [hidx1, hchunks1]; omega)
          constructor
          · rw [hlen2, hchunks1]
          · intro i hi
            rw [hget2 i (by omega), hchunks1]

/-- `read_adt_file` facts used by C3: with at most `chunks.length` MCNK
records in the file it cannot panic, and on success it keeps the grid
length and leaves slots at or beyond the MCNK count untouched. -/
theorem read_adt_file_facts (map_tile : MapTile) (input : List UInt8)
    (is_rootfile : Bool) (big_alpha : Option Bool)
    (hcnt : adtMcnkCount input ≤ map_tile.chunks.length) :
    read_adt_file map_tile input is_rootfile big_alpha ≠ .crash ∧
    ∀ tile', read_adt_file map_tile input is_rootfile big_alpha = .ok tile' →
      tile'.chunks.length = map_tile.chunks.length ∧
      ∀ i, adtMcnkCount input ≤ i →
        tile'.chunks.get? i = map_tile.chunks.get? i := by
  unfold read_adt_file
  constructor
  · refine Res.bind_no_crash ?_ (fun st => by simp)
    exact adtFold_no_crash is_rootfile big_alpha _ _ ⟨map_tile, [], [], 0⟩ _
      (by simpa [adtMcnkCount] using hcnt)
  · intro tile' h
    obtain ⟨st, hst, h⟩ := Res.bind_eq_ok h
    simp only [Res.pure_eq, Res.ok.injEq] at h
    subst h
    have := adtFold_ok_facts is_rootfile big_alpha _ _ ⟨map_tile, [], [], 0⟩ _
      st hst (by simpa [adtMcnkCount] using hcnt)
    exact ⟨this.1, fun i hi => this.2 i (by simpa [adtMcnkCount] using hi)⟩

/-- `read_adt_split` facts: an absent file changes nothing; a present one
obeys `read_adt_file_facts`. -/
theorem read_adt_split_facts (tile : MapTile) (o : Option (List UInt8))
    (big_alpha : Option Bool)
    (hcnt : ∀ bytes, o = some bytes → adtMcnkCount bytes ≤ tile.chunks.length) :
    read_adt_split tile o big_alpha ≠ .crash ∧
    ∀ tile', read_adt_split tile o big_alpha = .ok tile' →
      tile'.chunks.length = tile.chunks.length ∧
      ∀ i, (∀ bytes, o = some bytes → adtMcnkCount bytes ≤ i) →
        tile'.chunks.get? i = tile.chunks.get? i := by
  cases o with
  | none =>
    constructor
    · simp [read_adt_split]
    · intro tile' h
      simp only [read_adt_split, Res.pure_eq, Res.ok.injEq] at h
      subst h
      exact ⟨rfl, fun i _ => rfl⟩
  | some bytes =>
    have h := read_adt_file_facts tile bytes false big_alpha (hcnt bytes rfl)
    exact ⟨h.1, fun tile' ht =>
      ⟨(h.2 tile' ht).1, fun i hi => (h.2 tile' ht).2 i (hi bytes rfl)⟩⟩

/-- C3 (amended): whenever every present source file carries at most 256
MCNK records, `MapTile.load` never panics, and a successful load returns a
tile whose chunk grid has exactly 256 entries, with every slot beyond all
the files' MCNK counts still holding the default chunk.  (The original
claim's "any number of terrain-chunk records" fails: a file with more than
256 MCNK records panics — see the counterexample.) -/
theorem c3_chunk_grid_always_256 (src : AdtSources) (big_alpha : Option Bool)
    (hroot : adtMcnkCount src.root ≤ 256)
    (htex : ∀ bytes, src.tex0 = some bytes → adtMcnkCount bytes ≤ 256)
    (hobj : ∀ bytes, src.obj0 = some bytes → adtMcnkCount bytes ≤ 256) :
    MapTile.load src big_alpha ≠ .crash ∧
    ∀ tile, MapTile.load src big_alpha = .ok tile →
      tile.chunks.length = 256 ∧
      ∀ i, i < 256 → adtMcnkCount src.root ≤ i →
        (∀ bytes, src.tex0 = some bytes → adtMcnkCount bytes ≤ i) →
        (∀ bytes, src.obj0 = some bytes → adtMcnkCount bytes ≤ i) →
        tile.chunks.get? i = some defaultMapChunk := by
  have h1 := read_adt_file_facts
    ⟨[], [], [], List.replicate MAP_CHUNK_COUNT defaultMapChunk⟩
    src.root true big_alpha
    (by simp only [List.length_replicate, MAP_CHUNK_COUNT]; omega)
  unfold MapTile.load
  constructor
  · refine Res.bind_no_crash_of h1.1 (fun tile1 hok1 => ?_)
    have f1 := h1.2 tile1 hok1
    have h2 := read_adt_split_facts tile1 src.tex0 big_alpha
      (fun bytes hb => by
        rw [f1.1]
        simp only [List.length_replicate, MAP_CHUNK_COUNT]
        have := htex bytes hb; omega)
    refine Res.bind_no_crash_of h2.1 (fun tile2 hok2 => ?_)
    have f2 := h2.2 tile2 hok2
    have h3 := read_adt_split_facts tile2 src.obj0 big_alpha
      (fun bytes hb => by
        rw [f2.1, f1.1]
        simp only [List.length_replicate, MAP_CHUNK_COUNT]
        have := hobj bytes hb; omega)
    exact Res.bind_no_crash h3.1 (fun tile3 => by simp)
  · intro tile ht
    obtain ⟨tile1, hok1, ht⟩ := Res.bind_eq_ok ht
    obtain ⟨tile2, hok2, ht⟩ := Res.bind_eq_ok ht
    obtain ⟨tile3, hok3, ht⟩ := Res.bind_eq_ok ht
    simp only [Res.pure_eq, Res.ok.injEq] at ht
    subst ht
    have f1 := h1.2 tile1 hok1
    have h2 := read_adt_split_facts tile1 src.tex0 big_alpha
      (fun bytes hb => by
        rw [f1.1]
        simp only [List.length_replicate, MAP_CHUNK_COUNT]
        have := htex bytes hb; omega)
    have f2 := h2.2 tile2 hok2
    have h3 := read_adt_split_facts tile2 src.obj0 big_alpha
      (fun bytes hb => by
        rw [f2.1, f1.1]
        simp only [List.length_replicate, MAP_CHUNK_COUNT]
        have := hobj bytes hb; omega)
    have f3 := h3.2 tile3 hok3
    constructor
    · rw [f3.1, f2.1, f1.1]
      simp [MAP_CHUNK_COUNT]
    · intro i hilt hrooti htexi hobji
      rw [f3.2 i hobji, f2.2 i htexi, f1.2 i hrooti]
      exact listGetReplicate _ _ _ (by simp only [MAP_CHUNK_COUNT]; omega)

/-- C3 witness input: no split files, empty root (zero MCNK records). -/
theorem c3_chunk_grid_always_256_witness :
    MapTile.load ⟨[], none, none⟩ none ≠ .crash ∧
    ∀ tile, MapTile.load ⟨[], none, none⟩ none = .ok tile →
      tile.chunks.length = 256 ∧
      ∀ i, i < 256 → adtMcnkCount ([] : List UInt8) ≤ i →
        (∀ bytes, (none : Option (List UInt8)) = some bytes → adtMcnkCount bytes ≤ i) →
        (∀ bytes, (none : Option (List UInt8)) = some bytes → adtMcnkCount bytes ≤ i) →
        tile.chunks.get? i = some defaultMapChunk :=
  c3_chunk_grid_always_256 ⟨[], none, none⟩ none (by decide)
    (fun bytes hb => by cases hb) (fun bytes hb => by cases hb)

/-- A tex0 split file holding 257 empty MCNK records. -/
def c3TexBytes : List UInt8 := encodeChunks (List.replicate 257 (tokMCNK, []))

theorem listGet_some_lt {α : Type} :
    ∀ (l : List α) (i : Nat) (a : α), l.get? i = some a → i < l.length
  | [], _, _, h => nomatch h
  | _ :: _, 0, _, _ => by simp
  | b :: t, i + 1, a, h => by
    have := listGet_some_lt t i a h
    simp only [List.length_cons]
    omega

/-- Parsing at the end of the stream is a clean end of sequence. -/
theorem parseChunkAt_end {c : Cursor} (h : c.rest = []) :
    parseChunkAt c = .ok none := by
  unfold parseChunkAt Cursor.readInto Cursor.takeRead
  rw [h]
  rfl

/-- Symbolic parse of one complete encoded record at the cursor. -/
theorem parseChunkAt_record (c : Cursor) (tok payload rest' : List UInt8)
    (hlen : tok.length = 4) (hvalid : validUtf8 tok = true)
    (hsize : payload.length < 2 ^ 32)
    (hrest : c.rest = encodeChunk tok payload ++ rest') :
    parseChunkAt c = .ok (some (⟨tok, payload⟩,
      ⟨c.data, c.pos + 4 + 4 + payload.length, rest'⟩)) := by
  have hdrop1 : c.rest = tok.reverse ++ (le32 payload.length ++ (payload ++ rest')) := by
    simpa [encodeChunk, List.append_assoc] using hrest
  have e1 : c.takeRead 4 =
      (tok.reverse,
        ⟨c.data, c.pos + 4, le32 payload.length ++ (payload ++ rest')⟩) :=
    Cursor.takeRead_exact hdrop1 (by simp [hlen])
  have e2 : (⟨c.data, c.pos + 4,
        le32 payload.length ++ (payload ++ rest')⟩ : Cursor).readU32 =
      .ok (payload.length, ⟨c.data, c.pos + 4 + 4, payload ++ rest'⟩) :=
    Cursor.readU32_exact rfl hsize
  have e3 : (⟨c.data, c.pos + 4 + 4, payload ++ rest'⟩ : Cursor).takeRead
        payload.length =
      (payload, ⟨c.data, c.pos + 4 + 4 + payload.length, rest'⟩) :=
    Cursor.takeRead_exact rfl rfl
  unfold parseChunkAt
  simp only [Cursor.readInto, e1]
  rw [if_neg (by simp [hlen]), if_neg (by simp [hlen])]
  simp only [List.reverse_reverse, hvalid, if_true, e2, e3]

/-- The number of records a stream of `n` encoded empty MCNK records
contains (for any fuel above the unread remainder). -/
theorem countChunks_mcnk_repeat :
    ∀ (n : Nat) (fuel : Nat) (c : Cursor),
    c.rest = encodeChunks (List.replicate n (tokMCNK, [])) →
    c.remaining < fuel →
    countChunks tokMCNK fuel c = n := by
  intro n
  induction n with
  | zero =>
    intro fuel c hrest h
    match fuel with
    | 0 => exact absurd h (Nat.not_lt_zero _)
    | fuel + 1 =>
      have hp := parseChunkAt_end (by simpa [encodeChunks] using hrest)
      simp [countChunks, hp]
  | succ m ih =>
    intro fuel c hrest h
    match fuel with
    | 0 => exact absurd h (Nat.not_lt_zero _)
    | fuel + 1 =>
      have hrest1 : c.rest = encodeChunk tokMCNK [] ++
          encodeChunks (List.replicate m (tokMCNK, [])) := by
        simpa [encodeChunks, List.replicate_succ] using hrest
      have hp := parseChunkAt_record c tokMCNK []
        (encodeChunks (List.replicate m (tokMCNK, [])))
        (by decide) (by decide) (by decide) hrest1
      have hrem := parseChunkAt_remaining hp
      have hc' := ih fuel
        ⟨c.data, c.pos + 4 + 4 + ([] : List UInt8).length,
          encodeChunks (List.replicate m (tokMCNK, []))⟩ rfl
        (by simp only [Cursor.remaining] at h hrem ⊢; omega)
      simp only [countChunks, hp, hc']
      simp only [if_true]
      omega

/-- A successful empty-payload subchunk pass returns the chunk unchanged. -/
theorem read_mcnk_subchunks_empty (mc : MapChunk) (big_alpha : Option Bool) :
    read_mcnk_subchunks mc (Cursor.fresh []) big_alpha = .ok mc := rfl

/-- A stream of encoded empty MCNK records that outnumbers the free grid
slots drives the non-root `read_adt_file` loop into the out-of-bounds
`&mut map_tile.chunks[map_chunk_index]` panic. -/
theorem adtFold_mcnk_overflow (big_alpha : Option Bool) :
    ∀ (n : Nat) (fuel : Nat) (c : Cursor) (s : AdtState) (h : c.remaining < fuel),
    c.rest = encodeChunks (List.replicate n (tokMCNK, [])) →
    1 ≤ n →
    s.tile.chunks.length < s.map_chunk_index + n →
    chunkFold (adtStep false big_alpha) fuel c s h = .crash := by
  intro n
  induction n with
  | zero => intro fuel c s h hrest hn; exact absurd hn (by omega)
  | succ m ih =>
    intro fuel c s h hrest hn hover
    match fuel with
    | 0 => exact absurd h (Nat.not_lt_zero _)
    | fuel + 1 =>
      have hrest1 : c.rest = encodeChunk tokMCNK [] ++
          encodeChunks (List.replicate m (tokMCNK, [])) := by
        simpa [encodeChunks, List.replicate_succ] using hrest
      have hp := parseChunkAt_record c tokMCNK []
        (encodeChunks (List.replicate m (tokMCNK, [])))
        (by decide) (by decide) (by decide) hrest1
      simp only [chunkFold]
      split
      case h_1 e heq =>
        rw [hp] at heq
        all_goals exact absurd heq (by simp)
      case h_2 heq =>
        rw [hp] at heq
        all_goals exact absurd heq (by simp)
      case h_3 heq =>
        rw [hp] at heq
        all_goals exact absurd heq (by simp)
      case h_4 ck c' heq =>
        rw [hp] at heq
        simp only [Res.ok.injEq, Option.some.injEq, Prod.mk.injEq] at heq
        obtain ⟨hck, hc'⟩ := heq
        subst hck
        subst hc'
        by_cases hidx : s.map_chunk_index < s.tile.chunks.length
        · obtain ⟨mc, hg⟩ := listGet_lt _ _ hidx
          have hstep : adtStep false big_alpha s ⟨tokMCNK, []⟩ =
              .ok { s with
                tile := { s.tile with
                  chunks := s.tile.chunks.set s.map_chunk_index mc },
                map_chunk_index := s.map_chunk_index + 1 } := by
            unfold adtStep
            rw [if_neg (by decide), if_neg (by decide), if_neg (by decide),
              if_neg (by decide), if_neg (by decide), if_neg (by decide),
              if_neg (by decide), if_pos rfl]
            simp only [hg]
            rw [if_neg Bool.false_ne_true]
            simp only [Res.pure_eq, Res.bind_ok]
            rw [read_mcnk_subchunks_empty mc big_alpha]
            rfl
          simp only [hstep]
          apply ih fuel
          · rfl
          · omega
          · dsimp only
            simp only [List.length_set]
            omega
        · have hg : s.tile.chunks.get? s.map_chunk_index = none := by
            cases hgg : s.tile.chunks.get? s.map_chunk_index with
            | none => rfl
            | some mc => exact absurd (listGet_some_lt _ _ _ hgg) hidx
          have hstep : adtStep false big_alpha s ⟨tokMCNK, []⟩ = .crash := by
            unfold adtStep
            rw [if_neg (by decide), if_neg (by decide), if_neg (by decide),
              if_neg (by decide), if_neg (by decide), if_neg (by decide),
              if_neg (by decide), if_pos rfl]
            simp only [hg]
          simp only [hstep]

/-- C3 counterexample: the claim says the load never panics on the record
count, for ANY number of terrain-chunk records.  A split file with 257 MCNK
records panics: the 257th `&mut map_tile.chunks[map_chunk_index]` indexes
slot 256 of the 256-entry grid. -/
theorem c3_overfull_grid_panics :
    adtMcnkCount c3TexBytes = 257 ∧
    MapTile.load ⟨[], some c3TexBytes, none⟩ none = .crash := by
  constructor
  · exact countChunks_mcnk_repeat 257 _ _ rfl (Nat.lt_add_one _)
  · have hroot : read_adt_file
        ⟨[], [], [], List.replicate MAP_CHUNK_COUNT defaultMapChunk⟩ [] true none =
        .ok ⟨[], [], [], List.replicate MAP_CHUNK_COUNT defaultMapChunk⟩ := rfl
    have hcrash : chunkFold (adtStep false none)
        ((Cursor.fresh c3TexBytes).remaining + 1) (Cursor.fresh c3TexBytes)
        ⟨⟨[], [], [], List.replicate MAP_CHUNK_COUNT defaultMapChunk⟩, [], [], 0⟩
        (Nat.lt_add_one _) = .crash :=
      adtFold_mcnk_overflow none 257 _ _ _ _ rfl (by omega)
        (by simp [MAP_CHUNK_COUNT])
    have hsplit : read_adt_split
        ⟨[], [], [], List.replicate MAP_CHUNK_COUNT defaultMapChunk⟩
        (some c3TexBytes) none =
        read_adt_file ⟨[], [], [], List.replicate MAP_CHUNK_COUNT defaultMapChunk⟩
          c3TexBytes false none := rfl
    unfold MapTile.load
    simp only [hroot, Res.bind_ok]
    rw [hsplit]
    unfold read_adt_file
    rw [hcrash]
    rfl

/-- Main induction for C8: with no `big_alpha` hint, an MCAL pass over
layers none of which have both the use-alpha-map bit (8) and the compressed
bit (9) always succeeds; flagged layers end with `alpha_map = none` and a
recorded warning, unflagged layers are untouched. -/
theorem readMcalLoop_no_hint :
    ∀ (offs : List Nat) (index : Nat) (layers : List TextureLayer)
    (subcursor : Cursor) (warns : List Nat),
    index + offs.length ≤ layers.length →
    (∀ j layer, layers.get? j = some layer → index ≤ j → j < index + offs.length →
      ¬(layer.flags.testBit 8 = true ∧ layer.flags.testBit 9 = true)) →
    ∃ layers' warns',
      readMcalLoop none offs index layers subcursor warns = .ok (layers', warns') ∧
      (∃ w, warns' = warns ++ w) ∧
      (∀ j, j < index ∨ index + offs.length ≤ j →
        layers'.get? j = layers.get? j) ∧
      (∀ j layer, layers.get? j = some layer → index ≤ j → j < index + offs.length →
        (layer.flags.testBit 8 = true →
          layers'.get? j = some { layer with alpha_map := none } ∧ j ∈ warns') ∧
        (layer.flags.testBit 8 = false → layers'.get? j = some layer)) := by
  intro offs
  induction offs with
  | nil =>
    intro index layers sub warns hle hnc
    refine ⟨layers, warns, by simp [readMcalLoop], ⟨[], by simp⟩,
      fun j _ => rfl, fun j layer hj h1 h2 => by
        simp only [List.length_nil] at h2
        exact absurd h2 (by omega)⟩
  | cons start offs ih =>
    intro index layers sub warns hle hnc
    have hidx : index < layers.length := by
      simp only [List.length_cons] at hle; omega
    obtain ⟨layer, hg⟩ := listGet_lt layers index hidx
    by_cases h8 : layer.flags.testBit 8 = true
    · have h9 : ¬ layer.flags.testBit 9 = true := by
        intro h9c
        exact hnc index layer hg (Nat.le_refl _)
          (by simp only [List.length_cons]; omega) ⟨h8, h9c⟩
      obtain ⟨layers', warns', hrun, ⟨w, hw⟩, hout, hin⟩ :=
        ih (index + 1) (layers.set index { layer with alpha_map := none })
          (sub.seekTo start) (warns ++ [index])
          (by simp only [List.length_set, List.length_cons] at hle ⊢; omega)
          (fun j lj hj h1 h2 => by
            rw [listGetSet_ne _ _ _ _ (by omega)] at hj
            exact hnc j lj hj (by omega)
              (by simp only [List.length_cons]; omega))
      refine ⟨layers', warns', ?_, ⟨[index] ++ w, by simp [hw]⟩, ?_, ?_⟩
      · simp only [readMcalLoop, hg]
        rw [if_neg (not_not_intro h8), if_neg h9]
        exact hrun
      · intro j hj
        simp only [List.length_cons] at hj
        rw [hout j (by omega)]
        exact listGetSet_ne _ _ _ _ (by omega)
      · intro j lj hj h1 h2
        rcases Nat.eq_or_lt_of_le h1 with hje | hjgt
        · subst hje
          have hlj : lj = layer := by
            rw [hg] at hj
            injection hj with hx
            exact hx.symm
          subst hlj
          constructor
          · intro _
            constructor
            · rw [hout index (Or.inl (by omega)),
                listGetSet_eq _ _ _ (by simpa using hidx)]
            · rw [hw]
              exact List.mem_append_left _ (List.mem_append_right _ (by simp))
          · intro hfalse
            exact absurd h8 (by simp [hfalse])
        · have hin2 := hin j lj
            (by rw [listGetSet_ne _ _ _ _ (by omega)]; exact hj)
            (by omega) (by simp only [List.length_cons] at h2; omega)
          exact hin2
    · obtain ⟨layers', warns', hrun, hwapp, hout, hin⟩ :=
        ih (index + 1) layers sub warns
          (by simp only [List.length_cons] at hle; omega)
          (fun j lj hj h1 h2 => hnc j lj hj (by omega)
            (by simp only [List.length_cons]; omega))
      refine ⟨layers', warns', ?_, hwapp, ?_, ?_⟩
      · simp only [readMcalLoop, hg]
        rw [if_pos (by simpa using h8)]
        exact hrun
      · intro j hj
        exact hout j (by simp only [List.length_cons] at hj; omega)
      · intro j lj hj h1 h2
        rcases Nat.eq_or_lt_of_le h1 with hje | hjgt
        · subst hje
          have hlj : lj = layer := by
            rw [hg] at hj
            injection hj with hx
            exact hx.symm
          subst hlj
          constructor
          · intro htrue
            exact absurd htrue h8
          · intro _
            rw [hout index (Or.inl (by omega))]
            exact hg
        · exact hin j lj hj (by omega)
            (by simp only [List.length_cons] at h2; omega)

/-- C8: during terrain-tile decoding with no caller-supplied bit-width hint
(`big_alpha = none`), an MCAL pass over layers none of which combine the
use-alpha-map flag (bit 8) with the compressed flag (bit 9) returns `ok` —
no error, decoding continues: every layer with the use-alpha-map flag set
ends with its alpha map ABSENT and its index recorded as a warning, and
every layer with the flag clear (or beyond the offset table) is left
exactly as it was, so it never gains an alpha map. -/
theorem c8_missing_hint_warns_and_skips (mcal_offsets : List Nat)
    (layers : List TextureLayer) (subcursor : Cursor)
    (hlen : mcal_offsets.length ≤ layers.length)
    (hnc : ∀ j layer, layers.get? j = some layer → j < mcal_offsets.length →
      ¬(layer.flags.testBit 8 = true ∧ layer.flags.testBit 9 = true)) :
    ∃ layers' warns,
      readMcalLoop none mcal_offsets 0 layers subcursor [] = .ok (layers', warns) ∧
      (∀ j layer, layers.get? j = some layer → j < mcal_offsets.length →
        (layer.flags.testBit 8 = true →
          layers'.get? j = some { layer with alpha_map := none } ∧ j ∈ warns) ∧
        (layer.flags.testBit 8 = false → layers'.get? j = some layer)) ∧
      ∀ j, mcal_offsets.length ≤ j → layers'.get? j = layers.get? j := by
  obtain ⟨layers', warns', hrun, -, hout, hin⟩ :=
    readMcalLoop_no_hint mcal_offsets 0 layers subcursor [] (by omega)
      (fun j layer hj _ h2 => hnc j layer hj (by omega))
  exact ⟨layers', warns', hrun,
    fun j layer hj hlt => hin j layer hj (Nat.zero_le _) (by omega),
    fun j hj => hout j (Or.inr (by omega))⟩

/-- Two layers: one with only the use-alpha-map flag (bit 8, value 0x100),
one with no flags. -/
def c8Layers : List TextureLayer := [⟨0, 0x100, 0, none⟩, ⟨1, 0, 0, none⟩]

/-- C8 witness: two offsets over `c8Layers` with an empty MCAL payload and
no hint — the loop succeeds, warns on layer 0 and leaves layer 1 alone. -/
theorem c8_missing_hint_warns_and_skips_witness :
    ∃ layers' warns,
      readMcalLoop none [0, 0] 0 c8Layers (Cursor.fresh []) [] = .ok (layers', warns) ∧
      (∀ j layer, c8Layers.get? j = some layer → j < ([0, 0] : List Nat).length →
        (layer.flags.testBit 8 = true →
          layers'.get? j = some { layer with alpha_map := none } ∧ j ∈ warns) ∧
        (layer.flags.testBit 8 = false → layers'.get? j = some layer)) ∧
      ∀ j, ([0, 0] : List Nat).length ≤ j → layers'.get? j = c8Layers.get? j :=
  c8_missing_hint_warns_and_skips [0, 0] c8Layers (Cursor.fresh [])
    (by decide)
    (fun j layer hj hlt => by
      have h2 : j < 2 := by simpa using hlt
      interval_cases j
      · have hj2 : some (⟨0, 0x100, 0, none⟩ : TextureLayer) = some layer := hj
        injection hj2 with hx
        rw [← hx]
        decide
      · have hj2 : some (⟨1, 0, 0, none⟩ : TextureLayer) = some layer := hj
        injection hj2 with hx
        rw [← hx]
        decide)

end WowRs
